import Mathlib

/-
  Verification of the course-catalog fetch-and-merge script (src/script.py).

  JSON-like values are modelled by the mutual inductive family JVal / JArr /
  JObj (a Python value, a Python list of values, a Python dict with string
  keys in insertion order).  Python dicts always have distinct keys; where a
  proof needs that fact it appears as an explicit well-formedness hypothesis
  (wfO / wfV below).  Machine integers in the script are arbitrary-precision
  Python ints, modelled by Int.  All functions are translated directly from
  the source; pure state-passing replaces in-place mutation.
-/

mutual
inductive JVal : Type where
  | null : JVal
  | bool (b : Bool) : JVal
  | num (n : Int) : JVal
  | str (s : String) : JVal
  | arr (xs : JArr) : JVal
  | obj (kvs : JObj) : JVal

inductive JArr : Type where
  | nil : JArr
  | cons (v : JVal) (tl : JArr) : JArr

inductive JObj : Type where
  | nil : JObj
  | cons (k : String) (v : JVal) (tl : JObj) : JObj
end

deriving instance DecidableEq for JVal, JArr, JObj

def JArr.toList : JArr → List JVal
  | .nil => []
  | .cons v tl => v :: tl.toList

def JArr.ofList : List JVal → JArr
  | [] => .nil
  | v :: tl => .cons v (JArr.ofList tl)

def alen : JArr → Nat
  | .nil => 0
  | .cons _ tl => alen tl + 1

def olen : JObj → Nat
  | .nil => 0
  | .cons _ _ tl => olen tl + 1

def JObj.toList : JObj → List (String × JVal)
  | .nil => []
  | .cons k v tl => (k, v) :: tl.toList

def hasKey : JObj → String → Bool
  | .nil, _ => false
  | .cons k2 _ rest, k => k2 = k || hasKey rest k

def JVal.isObj : JVal → Bool
  | .obj _ => true
  | _ => false

def JVal.isArr : JVal → Bool
  | .arr _ => true
  | _ => false

/-- Python `d.get(k)`: the value stored at `k`, or `None` (here `.null`)
when the key is absent. -/
def dget (o : JObj) (k : String) : JVal :=
  match o with
  | .nil => .null
  | .cons k2 v rest => if k2 = k then v else dget rest k

/-- Python `d[k] = v`: replace the value at `k` in place if the key exists
(keys are unique in a Python dict), else append the new key at the end. -/
def dset (o : JObj) (k : String) (v : JVal) : JObj :=
  match o with
  | .nil => .cons k v .nil
  | .cons k2 v2 rest => if k2 = k then .cons k2 v rest else .cons k2 v2 (dset rest k v)

-- Distinct keys at every object, recursively (automatic for Python dicts).
mutual
def wfV : JVal → Bool
  | .null => true
  | .bool _ => true
  | .num _ => true
  | .str _ => true
  | .arr xs => wfA xs
  | .obj kvs => wfO kvs

def wfA : JArr → Bool
  | .nil => true
  | .cons v tl => wfV v && wfA tl

def wfO : JObj → Bool
  | .nil => true
  | .cons k v tl => !(hasKey tl k) && wfV v && wfO tl
end

/-- script.py is_blank: true for None, the empty string, the empty list and the empty dict. -/
def is_blank : JVal → Bool
  | .null => true
  | .str s => s = ""
  | .arr xs => xs = .nil
  | .obj kvs => kvs = .nil
  | _ => false

/-- script.py `merge_scalar_fill_only`. -/
def merge_scalar_fill_only (existing_dict : JObj) (k : String) (new_val : JVal) : JObj :=
  if is_blank (dget existing_dict k) && !(is_blank new_val) then
    dset existing_dict k new_val
  else existing_dict

-- script.py merge_dict_fill_only: walk the incoming dict; nested dicts
-- recurse (replacing a wrong-shaped existing value by an empty dict first),
-- list values only ensure a list exists on the existing side, scalars merge
-- fill-only.  mergeFillStep is the body of the for-loop for one key/value.
mutual
def mergeFillStep (existing : JObj) (k : String) (v : JVal) : JObj :=
  match v with
  | .obj o =>
    let cur := match dget existing k with | .obj eo => eo | _ => JObj.nil
    dset existing k (.obj (merge_dict_fill_only cur o))
  | .arr _ =>
    match dget existing k with
    | .arr _ => existing
    | _ => dset existing k (.arr .nil)
  | _ => merge_scalar_fill_only existing k v

def merge_dict_fill_only (existing : JObj) : JObj → JObj
  | .nil => existing
  | .cons k v rest => merge_dict_fill_only (mergeFillStep existing k v) rest
end

-- Python repr of a JSON-like value (as used by str on containers).
-- String escaping is simplified to plain quoting; no claim depends on
-- escape sequences.
mutual
def pyRepr : JVal → String
  | .null => "None"
  | .bool b => if b then "True" else "False"
  | .num n => toString n
  | .str s => "\x27" ++ s ++ "\x27"
  | .arr xs => "[" ++ pyReprA xs ++ "]"
  | .obj kvs => "\x7b" ++ pyReprO kvs ++ "\x7d"

def pyReprA : JArr → String
  | .nil => ""
  | .cons v .nil => pyRepr v
  | .cons v tl => pyRepr v ++ ", " ++ pyReprA tl

def pyReprO : JObj → String
  | .nil => ""
  | .cons k v .nil => "\x27" ++ k ++ "\x27: " ++ pyRepr v
  | .cons k v tl => "\x27" ++ k ++ "\x27: " ++ pyRepr v ++ ", " ++ pyReprO tl
end

/-- Python `str(x)`. -/
def pyStr : JVal → String
  | .str s => s
  | v => pyRepr v

/-- Python truthiness of a JSON-like value. -/
def pyTruthy : JVal → Bool
  | .null => false
  | .bool b => b
  | .num n => n != 0
  | .str s => s ≠ ""
  | .arr xs => xs ≠ .nil
  | .obj kvs => kvs ≠ .nil

/-- Python `a or b`. -/
def pyOr (a b : JVal) : JVal :=
  if pyTruthy a then a else b

/-- `json.dumps(item, sort_keys=True, ensure_ascii=False)`: canonical
serialization with keys sorted; rendered entries are sorted by key after
rendering, which agrees with sorting the keys first.  String escaping is
simplified to plain quoting. -/
def insertPair (p : String × String) : List (String × String) → List (String × String)
  | [] => [p]
  | q :: rest => if p.1 ≤ q.1 then p :: q :: rest else q :: insertPair p rest

def sortPairs : List (String × String) → List (String × String)
  | [] => []
  | p :: rest => insertPair p (sortPairs rest)

mutual
def jsonDumps : JVal → String
  | .null => "null"
  | .bool b => if b then "true" else "false"
  | .num n => toString n
  | .str s => "\"" ++ s ++ "\""
  | .arr xs => "[" ++ String.intercalate ", " (dumpArr xs) ++ "]"
  | .obj kvs => "\x7b" ++ String.intercalate ", " ((sortPairs (dumpObj kvs)).map Prod.snd) ++ "\x7d"

def dumpArr : JArr → List String
  | .nil => []
  | .cons v tl => jsonDumps v :: dumpArr tl

def dumpObj : JObj → List (String × String)
  | .nil => []
  | .cons k v tl => (k, "\"" ++ k ++ "\": " ++ jsonDumps v) :: dumpObj tl
end

/-- First candidate identity field of `fingerprint` that is non-blank. -/
def fpIdKey (kvs : JObj) : List String → Option String
  | [] => none
  | k :: rest =>
    let v := dget kvs k
    if is_blank v then fpIdKey kvs rest else some (k ++ ":" ++ pyStr v)

/-- script.py `fingerprint`. -/
def fingerprint (item : JVal) : String :=
  match item with
  | .obj kvs =>
    match fpIdKey kvs ["id", "notice_id", "_id", "update_id", "uid"] with
    | some fp => fp
    | none =>
      let title := pyOr (dget kvs "title") (pyOr (dget kvs "heading") (pyOr (dget kvs "name") (.str "")))
      let body := pyOr (dget kvs "message") (pyOr (dget kvs "description") (pyOr (dget kvs "content") (.str "")))
      let ts := pyOr (dget kvs "created_at") (pyOr (dget kvs "createdAt")
        (pyOr (dget kvs "published_at") (pyOr (dget kvs "publishedAt")
          (pyOr (dget kvs "date") (pyOr (dget kvs "time") (.str ""))))))
      if pyTruthy ts || pyTruthy title then
        let body_short := match body with
          | .str s => s.take 60
          | b => (pyStr b).take 60
        "ts:" ++ pyStr ts ++ "|t:" ++ pyStr title ++ "|b:" ++ body_short
      else
        "json:" ++ jsonDumps item
  | _ => pyStr item

/-- Lookup in a Python dict used as an index (str key to value). -/
def natLookup (m : List (String × Nat)) (s : String) : Option Nat :=
  match m with
  | [] => none
  | (k, i) :: rest => if k = s then some i else natLookup rest s

/-- Assignment in a Python dict used as an index. -/
def natSet (m : List (String × Nat)) (s : String) (i : Nat) : List (String × Nat) :=
  match m with
  | [] => [(s, i)]
  | (k, j) :: rest => if k = s then (k, i) :: rest else (k, j) :: natSet rest s i

/-- The index-building loop of script.py `merge_list_by_key` (also the
lesson index of `merge_course`, which repeats it with key "lesson_id"):
dict items whose key value is neither None nor "" are indexed by the
stringified key value; a later occurrence overwrites an earlier one. -/
def buildKeyIndex (key : String) : List JVal → Nat → List (String × Nat) → List (String × Nat)
  | [], _, idx => idx
  | item :: rest, i, idx =>
    let idx2 :=
      match item with
      | .obj kvs =>
        let item_id := dget kvs key
        if item_id = .null ∨ item_id = .str "" then idx else natSet idx (pyStr item_id) i
      | _ => idx
    buildKeyIndex key rest (i + 1) idx2

/-- The per-item loop of script.py `merge_list_by_key`.  When the index hits,
the indexed entry is necessarily a dict (only dicts are ever indexed); the
fallthrough arm for a non-dict entry is unreachable (Python would fault on
`existing.get` inside merge_dict_fill_only there). -/
def mergeKeyLoop (key : String) : List JVal → List (String × Nat) → List JVal → List JVal
  | lst, _, [] => lst
  | lst, idx, item :: rest =>
    match item with
    | .obj kvs =>
      let item_id := dget kvs key
      if item_id = .null ∨ item_id = .str "" then
        if item ∈ lst then mergeKeyLoop key lst idx rest
        else mergeKeyLoop key (lst ++ [item]) idx rest
      else
        match natLookup idx (pyStr item_id) with
        | some i =>
          let lst2 :=
            match lst.getD i .null with
            | .obj eo => lst.set i (.obj (merge_dict_fill_only eo kvs))
            | _ => lst
          mergeKeyLoop key lst2 idx rest
        | none => mergeKeyLoop key (lst ++ [item]) (natSet idx (pyStr item_id) lst.length) rest
    | _ =>
      if item ∈ lst then mergeKeyLoop key lst idx rest
      else mergeKeyLoop key (lst ++ [item]) idx rest

/-- script.py `merge_list_by_key`. -/
def merge_list_by_key (existing_list new_list : JVal) (key : String) : List JVal :=
  let exl := match existing_list with | .arr xs => xs.toList | _ => []
  match new_list with
  | .arr ns => mergeKeyLoop key exl (buildKeyIndex key exl 0 []) ns.toList
  | _ => exl

/-- The index comprehension of script.py `merge_list_by_fingerprint`: every
existing item is fingerprinted; a later occurrence overwrites an earlier. -/
def buildFpIndex : List JVal → Nat → List (String × Nat) → List (String × Nat)
  | [], _, idx => idx
  | item :: rest, i, idx => buildFpIndex rest (i + 1) (natSet idx (fingerprint item) i)

/-- The per-item loop of script.py `merge_list_by_fingerprint`: on a
fingerprint hit the incoming item is merged fill-only only when both the
indexed entry and the incoming item are dicts, and is dropped otherwise;
on a miss it is appended and indexed. -/
def mergeFpLoop : List JVal → List (String × Nat) → List JVal → List JVal
  | lst, _, [] => lst
  | lst, idx, item :: rest =>
    let fp := fingerprint item
    match natLookup idx fp with
    | some i =>
      let lst2 :=
        match lst.getD i .null, item with
        | .obj eo, .obj kvs => lst.set i (.obj (merge_dict_fill_only eo kvs))
        | _, _ => lst
      mergeFpLoop lst2 idx rest
    | none => mergeFpLoop (lst ++ [item]) (natSet idx fp lst.length) rest

/-- script.py `merge_list_by_fingerprint`. -/
def merge_list_by_fingerprint (existing_list new_list : JVal) : List JVal :=
  let exl := match existing_list with | .arr xs => xs.toList | _ => []
  match new_list with
  | .arr ns => mergeFpLoop exl (buildFpIndex exl 0 []) ns.toList
  | _ => exl

/-- Python `len` on a JSON-like value.  On None/numbers/bools Python raises
TypeError; that arm is modelled as 0 and is unreachable for the record
shapes this system ever builds (videos fields are lists). -/
def pyLen : JVal → Nat
  | .arr xs => alen xs
  | .obj kvs => olen kvs
  | .str s => s.length
  | _ => 0

/-- One term of the course lesson_count sum in `merge_course`:
`len(l.get("videos", []))` for dict lessons, 0 for others (Python skips
non-dicts in the generator). -/
def videoCount : JVal → Nat
  | .obj kvs => pyLen (dget kvs "videos")
  | _ => 0

/-- The matched-lesson body of `merge_course` (lines 259-268): fill-only
merge the lesson fields, reconcile videos by id, recompute lesson_count
from the merged video list (always a list here). -/
def mergeMatchedLesson (target lesson : JObj) : JObj :=
  let t1 := merge_dict_fill_only target lesson
  let t2 := dset t1 "videos"
    (.arr (JArr.ofList (merge_list_by_key (dget t1 "videos") (dget lesson "videos") "id")))
  match dget t2 "videos" with
  | .arr vs => dset t2 "lesson_count" (.num (alen vs))
  | _ => t2

/-- The lesson loop of `merge_course` (lines 246-273).  As in mergeKeyLoop,
an index hit addresses a dict entry; the non-dict arm is unreachable. -/
def mergeLessonsLoop : List JVal → List (String × Nat) → List JVal → List JVal
  | lst, _, [] => lst
  | lst, idx, lesson :: rest =>
    match lesson with
    | .obj kvs =>
      let lid := dget kvs "lesson_id"
      if lid = .null ∨ lid = .str "" then
        if lesson ∈ lst then mergeLessonsLoop lst idx rest
        else mergeLessonsLoop (lst ++ [lesson]) idx rest
      else
        match natLookup idx (pyStr lid) with
        | some i =>
          let lst2 :=
            match lst.getD i .null with
            | .obj eo => lst.set i (.obj (mergeMatchedLesson eo kvs))
            | _ => lst
          mergeLessonsLoop lst2 idx rest
        | none =>
          let lesson2 :=
            match dget kvs "videos" with
            | .arr vs => dset kvs "lesson_count" (.num (alen vs))
            | _ => kvs
          mergeLessonsLoop (lst ++ [.obj lesson2]) (natSet idx (pyStr lid) lst.length) rest
    | _ =>
      if lesson ∈ lst then mergeLessonsLoop lst idx rest
      else mergeLessonsLoop (lst ++ [lesson]) idx rest

/-- script.py `merge_course`: structural fill-only merge, then keyed
reconciliation of classroom and live_classes, fingerprint reconciliation of
announcements, the lesson loop, and finally the course lesson_count
recomputed as the sum over dict lessons of len of their videos value. -/
def merge_course (existing_course new_course : JObj) : JObj :=
  let e1 := merge_dict_fill_only existing_course new_course
  let e2 := dset e1 "classroom"
    (.arr (JArr.ofList (merge_list_by_key (dget e1 "classroom") (dget new_course "classroom") "id")))
  let e3 := dset e2 "live_classes"
    (.arr (JArr.ofList (merge_list_by_key (dget e2 "live_classes") (dget new_course "live_classes") "id")))
  let e4 := dset e3 "announcements"
    (.arr (JArr.ofList (merge_list_by_fingerprint (dget e3 "announcements") (dget new_course "announcements"))))
  let existing_lessons := match dget e4 "lessons" with | .arr xs => xs.toList | _ => []
  let new_lessons := match dget new_course "lessons" with | .arr xs => xs.toList | _ => []
  let final_lessons :=
    mergeLessonsLoop existing_lessons (buildKeyIndex "lesson_id" existing_lessons 0 []) new_lessons
  let e5 := dset e4 "lessons" (.arr (JArr.ofList final_lessons))
  dset e5 "lesson_count" (.num ((final_lessons.map videoCount).sum : Nat))

/-- script.py `upsert_course`: linear scan for the first record whose
course_id equals the given one; merge in place if found, else append the
incoming record verbatim. -/
def upsert_course : List JObj → JVal → JObj → List JObj
  | [], _, new_course => [new_course]
  | c :: rest, course_id, new_course =>
    if dget c "course_id" = course_id then merge_course c new_course :: rest
    else c :: upsert_course rest course_id new_course

/-- One HTTP attempt outcome as `safe_get` classifies it: a transport error
(requests.RequestException), or a response with a status code and a body
that either parses as JSON (`some j`) or does not (`none`). -/
inductive HttpOutcome : Type where
  | netError : HttpOutcome
  | response (code : Nat) (body : Option JVal) : HttpOutcome

deriving instance DecidableEq for HttpOutcome

/-- script.py `safe_get`, over the list of outcomes the server would give to
attempts 1, 2, ...; the list length is MAX_RETRIES.  Returns the Python
return value (`none` is the implicit None when MAX_RETRIES is 0 and the
loop body never runs) together with the number of attempts performed.
Sleeps (jitter and backoff) do not affect the result and are not modelled.
Every branch returns normally: the function never raises to its caller. -/
def safe_get : List HttpOutcome → Option JVal × Nat
  | [] => (none, 0)
  | o :: rest =>
    match o with
    | .netError =>
      match rest with
      | [] => (some (.arr .nil), 1)
      | _ :: _ =>
        let r := safe_get rest
        (r.1, r.2 + 1)
    | .response code body =>
      if code = 500 ∨ code = 502 ∨ code = 503 ∨ code = 504 then
        match rest with
        | [] => (some (.arr .nil), 1)
        | _ :: _ =>
          let r := safe_get rest
          (r.1, r.2 + 1)
      else if code ≠ 200 then (some (.arr .nil), 1)
      else
        match body with
        | some j => (some j, 1)
        | none => (some (.arr .nil), 1)

/-- The identity under which `merge_list_by_key` indexes an item: dict items
with a key value that is neither None nor "", by stringified key value. -/
def keyOf (key : String) (item : JVal) : Option String :=
  match item with
  | .obj kvs =>
    let item_id := dget kvs key
    if item_id = .null ∨ item_id = .str "" then none else some (pyStr item_id)
  | _ => none

/-- Position of the last item of the list on which `f` yields `some s`
(mirrors that a later index entry overwrites an earlier one). -/
def lastPos (f : JVal → Option String) : List JVal → String → Option Nat
  | [], _ => none
  | x :: xs, s =>
    match lastPos f xs s with
    | some j => some (j + 1)
    | none => if f x = some s then some 0 else none

/-- The lesson-level invariant of the spec: a dict lesson whose videos field
is a list and whose lesson_count equals its length. -/
def lessonOk : JVal → Bool
  | .obj kvs =>
    match dget kvs "videos" with
    | .arr vs => decide (dget kvs "lesson_count" = .num (alen vs))
    | _ => false
  | _ => false

/-- A lesson as the self-merge (idempotence) statement needs it: if it is a
dict carrying a usable lesson_id, its videos field is a list with unique
video ids and its lesson_count already equals the video count.  Dict
lessons with a blank lesson_id and non-dict lessons need no condition. -/
def lessonSelfOk : JVal → Bool
  | .obj kvs =>
    if dget kvs "lesson_id" = JVal.null ∨ dget kvs "lesson_id" = JVal.str "" then true
    else
      match dget kvs "videos" with
      | .arr vs =>
        decide ((vs.toList.filterMap (keyOf "id")).Nodup)
          && decide (dget kvs "lesson_count" = .num (alen vs))
      | _ => false
  | _ => true

/-- The length of the videos list of a lesson (0 when absent or not a dict
lesson); under lessonOk this is the video count of the lesson. -/
def lessonVideoLen : JVal → Nat
  | .obj kvs =>
    match dget kvs "videos" with
    | .arr vs => alen vs
    | _ => 0
  | _ => 0

/-- The course_id values of a master collection, as `upsert_course` reads
them. -/
def courseIds (master : List JObj) : List JVal :=
  master.map (fun c => dget c "course_id")

/-! Spine induction principles: recursion along the list spine of JObj and
JArr only, without motives for the other members of the mutual family. -/

theorem jobj_spine_ind (motive : JObj → Prop) (hnil : motive .nil)
    (hcons : ∀ k v tl, motive tl → motive (.cons k v tl)) : ∀ o, motive o
  | .nil => hnil
  | .cons k v tl => hcons k v tl (jobj_spine_ind motive hnil hcons tl)

theorem jarr_spine_ind (motive : JArr → Prop) (hnil : motive .nil)
    (hcons : ∀ v tl, motive tl → motive (.cons v tl)) : ∀ a, motive a
  | .nil => hnil
  | .cons v tl => hcons v tl (jarr_spine_ind motive hnil hcons tl)

/-! Basic lemmas about dget / dset / hasKey / wf. -/

theorem dget_dset_self (o : JObj) (k : String) (v : JVal) : dget (dset o k v) k = v := by
  induction o using jobj_spine_ind with
  | hnil => simp [dget, dset]
  | hcons k2 v2 tl ih =>
    by_cases h : k2 = k
    · simp [dget, dset, h]
    · simp [dget, dset, h, ih]

theorem dget_dset_ne (o : JObj) (k2 k : String) (v : JVal) (h : k2 ≠ k) :
    dget (dset o k2 v) k = dget o k := by
  induction o using jobj_spine_ind with
  | hnil => simp [dget, dset, h]
  | hcons k3 v3 tl ih =>
    by_cases h3 : k3 = k2
    · subst h3
      simp [dget, dset, h]
    · by_cases hk : k3 = k
      · subst hk
        simp [dget, dset, h3]
      · simp [dget, dset, h3, hk, ih]

theorem hasKey_of_dget_ne_null (o : JObj) (k : String) (h : dget o k ≠ .null) :
    hasKey o k = true := by
  induction o using jobj_spine_ind with
  | hnil => simp [dget] at h
  | hcons k2 v tl ih =>
    by_cases hk : k2 = k
    · simp [hasKey, hk]
    · simp [dget, hk] at h
      simp [hasKey, hk, ih h]

theorem dset_eq_self (o : JObj) (k : String) (v : JVal) (hk : hasKey o k = true)
    (hv : dget o k = v) : dset o k v = o := by
  induction o using jobj_spine_ind with
  | hnil => simp [hasKey] at hk
  | hcons k2 v2 tl ih =>
    by_cases h : k2 = k
    · subst h
      simp [dget] at hv
      simp [dset, hv]
    · simp [hasKey, h] at hk
      simp [dget, h] at hv
      simp [dset, h, ih hk hv]

theorem dset_eq_self_of_ne_null (o : JObj) (k : String) (v : JVal)
    (hv : dget o k = v) (hnn : v ≠ .null) : dset o k v = o :=
  dset_eq_self o k v (hasKey_of_dget_ne_null o k (hv ▸ hnn)) hv

theorem toList_ofList (l : List JVal) : (JArr.ofList l).toList = l := by
  induction l with
  | nil => rfl
  | cons x xs ih => simp [JArr.ofList, JArr.toList, ih]

theorem ofList_toList (xs : JArr) : JArr.ofList xs.toList = xs := by
  induction xs using jarr_spine_ind with
  | hnil => rfl
  | hcons v tl ih => simp [JArr.ofList, JArr.toList, ih]

theorem alen_toList (xs : JArr) : alen xs = xs.toList.length := by
  induction xs using jarr_spine_ind with
  | hnil => rfl
  | hcons v tl ih => simp [alen, JArr.toList, ih]

theorem alen_ofList (l : List JVal) : alen (JArr.ofList l) = l.length := by
  rw [alen_toList, toList_ofList]

theorem hasKey_of_mem_toList (o : JObj) {k : String} {v : JVal}
    (hm : (k, v) ∈ o.toList) : hasKey o k = true := by
  induction o using jobj_spine_ind with
  | hnil => simp [JObj.toList] at hm
  | hcons k2 v2 tl ih =>
    simp [JObj.toList] at hm
    rcases hm with ⟨hk, _⟩ | hm
    · simp [hasKey, hk]
    · simp [hasKey, ih hm]

theorem wfO_dget_of_mem (o : JObj) (hwf : wfO o = true) {k : String} {v : JVal}
    (hm : (k, v) ∈ o.toList) : dget o k = v := by
  induction o using jobj_spine_ind with
  | hnil => simp [JObj.toList] at hm
  | hcons k2 v2 tl ih =>
    simp [wfO, Bool.and_eq_true] at hwf
    simp [JObj.toList] at hm
    rcases hm with ⟨hk, hv⟩ | hm
    · simp [dget, hk, hv]
    · have hne : k2 ≠ k := by
        intro he
        subst he
        have hhk := hasKey_of_mem_toList tl hm
        rw [hhk] at hwf
        simp at hwf
      simp [dget, hne, ih hwf.2 hm]

theorem wfV_of_mem_wfO (o : JObj) (hwf : wfO o = true) {k : String} {v : JVal}
    (hm : (k, v) ∈ o.toList) : wfV v = true := by
  induction o using jobj_spine_ind with
  | hnil => simp [JObj.toList] at hm
  | hcons k2 v2 tl ih =>
    simp [wfO, Bool.and_eq_true] at hwf
    simp [JObj.toList] at hm
    rcases hm with ⟨_, hv⟩ | hm
    · subst hv
      exact hwf.1.2
    · exact ih hwf.2 hm

theorem wfV_dget (o : JObj) (k : String) (hwf : wfO o = true) : wfV (dget o k) = true := by
  induction o using jobj_spine_ind with
  | hnil => simp [dget, wfV]
  | hcons k2 v tl ih =>
    simp [wfO, Bool.and_eq_true] at hwf
    by_cases hk : k2 = k
    · simp [dget, hk, hwf.1.2]
    · simp [dget, hk, ih hwf.2]

theorem wfA_mem (xs : JArr) (h : wfA xs = true) {x : JVal} (hx : x ∈ xs.toList) :
    wfV x = true := by
  induction xs using jarr_spine_ind with
  | hnil => simp [JArr.toList] at hx
  | hcons v tl ih =>
    simp [wfA, Bool.and_eq_true] at h
    simp [JArr.toList] at hx
    rcases hx with hx | hx
    · subst hx; exact h.1
    · exact ih h.2 hx

theorem sizeOf_dget (o : JObj) (k : String) :
    dget o k = .null ∨ sizeOf (dget o k) < sizeOf o := by
  induction o using jobj_spine_ind with
  | hnil => left; rfl
  | hcons k2 v tl ih =>
    by_cases hk : k2 = k
    · right
      rw [show dget (JObj.cons k2 v tl) k = v by simp [dget, hk]]
      simp only [JObj.cons.sizeOf_spec]
      omega
    · rw [show dget (JObj.cons k2 v tl) k = dget tl k by simp [dget, hk]]
      rcases ih with h | h
      · left; exact h
      · right
        simp only [JObj.cons.sizeOf_spec]
        omega

/-! Lemmas about the fill-only merge primitives. -/

theorem msfo_dget_ne (ex : JObj) (k2 k : String) (v : JVal) (h : k2 ≠ k) :
    dget (merge_scalar_fill_only ex k2 v) k = dget ex k := by
  unfold merge_scalar_fill_only
  split
  · exact dget_dset_ne ex k2 k v h
  · rfl

theorem msfo_nonblank (ex : JObj) (k : String) (v : JVal)
    (h : is_blank (dget ex k) = false) : merge_scalar_fill_only ex k v = ex := by
  simp [merge_scalar_fill_only, h]

theorem msfo_dget_eq (ex : JObj) (k : String) (v : JVal)
    (h : dget ex k = v) : merge_scalar_fill_only ex k v = ex := by
  unfold merge_scalar_fill_only
  rw [h]
  cases is_blank v <;> simp

theorem sizeOf_JObj_pos (o : JObj) : 0 < sizeOf o := by
  cases o <;> simp only [JObj.nil.sizeOf_spec, JObj.cons.sizeOf_spec] <;> omega

/-- Fill-only merging a sub-dict of a well-formed dict into it changes
nothing (the heart of merge idempotence). -/
theorem mdfo_sub : ∀ (n : Nat) (ex : JObj), sizeOf ex ≤ n → wfO ex = true →
    ∀ new : JObj, (∀ p ∈ new.toList, p ∈ ex.toList) → merge_dict_fill_only ex new = ex := by
  intro n
  induction n with
  | zero =>
    intro ex hsz
    exact absurd hsz (by have := sizeOf_JObj_pos ex; omega)
  | succ n ihn =>
    intro ex hsz hwf new
    induction new using jobj_spine_ind with
    | hnil => intro _; rfl
    | hcons k v rest ih =>
      intro hsub
      have hmem : (k, v) ∈ ex.toList := hsub (k, v) (by simp [JObj.toList])
      have hdg : dget ex k = v := wfO_dget_of_mem ex hwf hmem
      have hwfv : wfV v = true := wfV_of_mem_wfO ex hwf hmem
      have hrest : ∀ p ∈ rest.toList, p ∈ ex.toList := fun p hp =>
        hsub p (by simp [JObj.toList]; right; exact hp)
      have hstep : mergeFillStep ex k v = ex := by
        cases v with
        | null => exact msfo_dget_eq ex k _ hdg
        | bool b => exact msfo_dget_eq ex k _ hdg
        | num m => exact msfo_dget_eq ex k _ hdg
        | str s => exact msfo_dget_eq ex k _ hdg
        | arr xs =>
          simp only [mergeFillStep]
          rw [hdg]
        | obj o =>
          simp only [mergeFillStep]
          rw [hdg]
          have hszo : sizeOf o ≤ n := by
            have h1 := sizeOf_dget ex k
            rw [hdg] at h1
            rcases h1 with h1 | h1
            · cases h1
            · simp only [JVal.obj.sizeOf_spec] at h1
              omega
          have hwfo : wfO o = true := by simpa [wfV] using hwfv
          rw [ihn o hszo hwfo o (fun p hp => hp)]
          exact dset_eq_self_of_ne_null ex k _ hdg (by simp)
      simp only [merge_dict_fill_only]
      rw [hstep]
      exact ih hrest

/-- merge_dict_fill_only of a well-formed dict into itself is the identity. -/
theorem mdfo_self (d : JObj) (h : wfO d = true) : merge_dict_fill_only d d = d :=
  mdfo_sub (sizeOf d) d le_rfl h d (fun _ hp => hp)

theorem mergeFillStep_dget_ne (ex : JObj) (k2 k : String) (v : JVal) (h : k2 ≠ k) :
    dget (mergeFillStep ex k2 v) k = dget ex k := by
  cases v with
  | null => exact msfo_dget_ne ex k2 k _ h
  | bool b => exact msfo_dget_ne ex k2 k _ h
  | num m => exact msfo_dget_ne ex k2 k _ h
  | str s => exact msfo_dget_ne ex k2 k _ h
  | arr xs =>
    simp only [mergeFillStep]
    cases hg : dget ex k2 with
    | arr ys => rfl
    | null => exact dget_dset_ne ex k2 k _ h
    | bool b => exact dget_dset_ne ex k2 k _ h
    | num m => exact dget_dset_ne ex k2 k _ h
    | str s => exact dget_dset_ne ex k2 k _ h
    | obj o => exact dget_dset_ne ex k2 k _ h
  | obj o =>
    simp only [mergeFillStep]
    exact dget_dset_ne ex k2 k _ h

theorem mergeFillStep_nonblank_scalar (ex : JObj) (k : String) (v : JVal)
    (hnb : is_blank (dget ex k) = false)
    (ho : v.isObj = false) (ha : v.isArr = false) : mergeFillStep ex k v = ex := by
  cases v with
  | null => exact msfo_nonblank ex k _ hnb
  | bool b => exact msfo_nonblank ex k _ hnb
  | num m => exact msfo_nonblank ex k _ hnb
  | str s => exact msfo_nonblank ex k _ hnb
  | arr xs => simp [JVal.isArr] at ha
  | obj o => simp [JVal.isObj] at ho

theorem mergeFillStep_arr (ex : JObj) (k : String) (v : JVal) (xs : JArr)
    (hg : dget ex k = .arr xs) (ha : v.isArr = true) : mergeFillStep ex k v = ex := by
  cases v with
  | arr ys =>
    simp only [mergeFillStep]
    rw [hg]
  | null => simp [JVal.isArr] at ha
  | bool b => simp [JVal.isArr] at ha
  | num m => simp [JVal.isArr] at ha
  | str s => simp [JVal.isArr] at ha
  | obj o => simp [JVal.isArr] at ha

theorem mergeFillStep_dget_fix (ex : JObj) (k : String) (v : JVal)
    (hdg : dget ex k = v) (hwfv : wfV v = true) :
    dget (mergeFillStep ex k v) k = dget ex k := by
  cases v with
  | null =>
    have h : mergeFillStep ex k JVal.null = ex := msfo_dget_eq ex k _ hdg
    rw [h]
  | bool b =>
    have h : mergeFillStep ex k (JVal.bool b) = ex := msfo_dget_eq ex k _ hdg
    rw [h]
  | num m =>
    have h : mergeFillStep ex k (JVal.num m) = ex := msfo_dget_eq ex k _ hdg
    rw [h]
  | str s =>
    have h : mergeFillStep ex k (JVal.str s) = ex := msfo_dget_eq ex k _ hdg
    rw [h]
  | arr xs =>
    rw [mergeFillStep_arr ex k _ xs hdg (by simp [JVal.isArr])]
  | obj o =>
    simp only [mergeFillStep]
    rw [hdg, dget_dset_self]
    exact congrArg JVal.obj (mdfo_self o (by simpa [wfV] using hwfv))

/-- A field of the existing dict whose value is non-blank is unchanged by
merge_dict_fill_only whenever the incoming value at that field (if any) is
neither a dict nor a list. -/
theorem mdfo_preserve_nonblank : ∀ (new ex : JObj) (k : String),
    is_blank (dget ex k) = false →
    (∀ v, (k, v) ∈ new.toList → v.isObj = false ∧ v.isArr = false) →
    dget (merge_dict_fill_only ex new) k = dget ex k := by
  intro new
  induction new using jobj_spine_ind with
  | hnil => intro ex k _ _; rfl
  | hcons k2 v rest ih =>
    intro ex k hnb hsc
    have hrest : ∀ v2, (k, v2) ∈ rest.toList → v2.isObj = false ∧ v2.isArr = false :=
      fun v2 hv2 => hsc v2 (by simp [JObj.toList]; right; exact hv2)
    by_cases hk : k2 = k
    · subst hk
      have hv := hsc v (by simp [JObj.toList])
      have hstep : mergeFillStep ex k2 v = ex :=
        mergeFillStep_nonblank_scalar ex k2 v hnb hv.1 hv.2
      simp only [merge_dict_fill_only]
      rw [hstep]
      exact ih ex k2 hnb hrest
    · simp only [merge_dict_fill_only]
      have hpres := mergeFillStep_dget_ne ex k2 k v hk
      rw [ih (mergeFillStep ex k2 v) k (by rw [hpres]; exact hnb) hrest, hpres]

/-- A list-valued field of the existing dict is untouched by
merge_dict_fill_only whenever every incoming value at that field is a
list. -/
theorem mdfo_preserve_arr : ∀ (new ex : JObj) (k : String) (xs : JArr),
    dget ex k = .arr xs →
    (∀ v, (k, v) ∈ new.toList → v.isArr = true) →
    dget (merge_dict_fill_only ex new) k = .arr xs := by
  intro new
  induction new using jobj_spine_ind with
  | hnil => intro ex k xs h _; exact h
  | hcons k2 v rest ih =>
    intro ex k xs hg harr
    have hrest : ∀ v2, (k, v2) ∈ rest.toList → v2.isArr = true :=
      fun v2 hv2 => harr v2 (by simp [JObj.toList]; right; exact hv2)
    by_cases hk : k2 = k
    · subst hk
      have hstep : mergeFillStep ex k2 v = ex :=
        mergeFillStep_arr ex k2 v xs hg (harr v (by simp [JObj.toList]))
      simp only [merge_dict_fill_only]
      rw [hstep]
      exact ih ex k2 xs hg hrest
    · simp only [merge_dict_fill_only]
      have hpres := mergeFillStep_dget_ne ex k2 k v hk
      exact ih (mergeFillStep ex k2 v) k xs (by rw [hpres]; exact hg) hrest

/-- A field at which every incoming value equals the existing value (and is
well-formed) keeps its value under merge_dict_fill_only. -/
theorem mdfo_dget_fix : ∀ (new ex : JObj) (k : String),
    (∀ v, (k, v) ∈ new.toList → v = dget ex k ∧ wfV v = true) →
    dget (merge_dict_fill_only ex new) k = dget ex k := by
  intro new
  induction new using jobj_spine_ind with
  | hnil => intro ex k _; rfl
  | hcons k2 v rest ih =>
    intro ex k hfix
    by_cases hk : k2 = k
    · subst hk
      have hv := hfix v (by simp [JObj.toList])
      have hstep := mergeFillStep_dget_fix ex k2 v hv.1.symm hv.2
      simp only [merge_dict_fill_only]
      rw [ih (mergeFillStep ex k2 v) k2 (fun v2 hv2 => by
        rw [hstep]
        exact hfix v2 (by simp [JObj.toList]; right; exact hv2)), hstep]
    · simp only [merge_dict_fill_only]
      have hpres := mergeFillStep_dget_ne ex k2 k v hk
      rw [ih (mergeFillStep ex k2 v) k (fun v2 hv2 => by
        rw [hpres]
        exact hfix v2 (by simp [JObj.toList]; right; exact hv2)), hpres]

/-! Lemmas about index dicts (natLookup / natSet), lastPos and the two
index-building loops. -/

theorem natLookup_natSet_self (m : List (String × Nat)) (s : String) (i : Nat) :
    natLookup (natSet m s i) s = some i := by
  induction m with
  | nil => simp [natSet, natLookup]
  | cons p rest ih =>
    obtain ⟨k, j⟩ := p
    by_cases hk : k = s
    · simp [natSet, natLookup, hk]
    · simp [natSet, natLookup, hk, ih]

theorem natLookup_natSet_ne (m : List (String × Nat)) (s2 s : String) (i : Nat)
    (h : s2 ≠ s) : natLookup (natSet m s2 i) s = natLookup m s := by
  induction m with
  | nil => simp [natSet, natLookup, h]
  | cons p rest ih =>
    obtain ⟨k, j⟩ := p
    by_cases hk : k = s2
    · subst hk
      simp [natSet, natLookup, h]
    · simp [natSet, natLookup, hk, ih]

theorem natLookup_natSet_cases (m : List (String × Nat)) (s s2 : String) (i j : Nat)
    (h : natLookup (natSet m s i) s2 = some j) :
    (s ≠ s2 ∧ natLookup m s2 = some j) ∨ (s = s2 ∧ j = i) := by
  by_cases hs : s = s2
  · subst hs
    rw [natLookup_natSet_self] at h
    right
    exact ⟨rfl, (Option.some_inj.mp h).symm⟩
  · left
    rw [natLookup_natSet_ne m s s2 i hs] at h
    exact ⟨hs, h⟩

theorem lastPos_some (f : JVal → Option String) :
    ∀ (l : List JVal) (s : String) (j : Nat), lastPos f l s = some j →
    j < l.length ∧ f (l.getD j .null) = some s := by
  intro l
  induction l with
  | nil => intro s j h; simp [lastPos] at h
  | cons x xs ih =>
    intro s j h
    simp only [lastPos] at h
    cases hx : lastPos f xs s with
    | some j2 =>
      rw [hx] at h
      obtain rfl : j2 + 1 = j := Option.some_inj.mp h
      have := ih s j2 hx
      exact ⟨by simp; omega, by simpa using this.2⟩
    | none =>
      rw [hx] at h
      by_cases hf : f x = some s
      · rw [if_pos hf] at h
        obtain rfl : 0 = j := Option.some_inj.mp h
        exact ⟨by simp, by simpa using hf⟩
      · rw [if_neg hf] at h
        cases h

theorem lastPos_none (f : JVal → Option String) :
    ∀ (l : List JVal) (s : String), lastPos f l s = none →
    ∀ j, j < l.length → f (l.getD j .null) ≠ some s := by
  intro l
  induction l with
  | nil => intro s _ j hj; simp at hj
  | cons x xs ih =>
    intro s h j hj
    simp only [lastPos] at h
    cases hx : lastPos f xs s with
    | some j2 => rw [hx] at h; cases h
    | none =>
      rw [hx] at h
      by_cases hf : f x = some s
      · rw [if_pos hf] at h; cases h
      · cases j with
        | zero => simpa using hf
        | succ j2 =>
          have hj2 : j2 < xs.length := by simp at hj; omega
          simpa using ih s hx j2 hj2

theorem lastPos_isSome (f : JVal → Option String) (l : List JVal) (s : String)
    (j : Nat) (hj : j < l.length) (hf : f (l.getD j .null) = some s) :
    ∃ i, lastPos f l s = some i := by
  cases h : lastPos f l s with
  | some i => exact ⟨i, rfl⟩
  | none => exact absurd hf (lastPos_none f l s h j hj)

theorem jgetD_mem : ∀ (l : List JVal) (j : Nat), j < l.length → l.getD j .null ∈ l := by
  intro l
  induction l with
  | nil => intro j hj; simp at hj
  | cons x xs ih =>
    intro j hj
    cases j with
    | zero => simp
    | succ j2 =>
      have hj2 : j2 < xs.length := by simp at hj; omega
      simp only [List.getD_cons_succ]
      exact List.mem_cons_of_mem x (ih j2 hj2)

theorem mem_filterMap_of_getD (f : JVal → Option String) (l : List JVal) (j : Nat)
    (hj : j < l.length) (s : String) (hf : f (l.getD j .null) = some s) :
    s ∈ l.filterMap f :=
  List.mem_filterMap.mpr ⟨l.getD j .null, jgetD_mem l j hj, hf⟩

theorem lastPos_eq_of_nodup (f : JVal → Option String) :
    ∀ (l : List JVal), (l.filterMap f).Nodup →
    ∀ (p : Nat) (s : String), p < l.length → f (l.getD p .null) = some s →
    lastPos f l s = some p := by
  intro l
  induction l with
  | nil => intro _ p s hp; simp at hp
  | cons x xs ih =>
    intro hnd p s hp hf
    have hndtl : (xs.filterMap f).Nodup := by
      rcases hfx : f x with _ | s2
      · simpa [List.filterMap_cons, hfx] using hnd
      · rw [List.filterMap_cons, hfx] at hnd
        exact (List.nodup_cons.mp hnd).2
    cases p with
    | zero =>
      simp only [List.getD_cons_zero] at hf
      have hnone : lastPos f xs s = none := by
        cases hx : lastPos f xs s with
        | none => rfl
        | some j2 =>
          have h2 := lastPos_some f xs s j2 hx
          have hmem := mem_filterMap_of_getD f xs j2 h2.1 s h2.2
          rw [List.filterMap_cons, hf] at hnd
          exact absurd hmem (List.nodup_cons.mp hnd).1
      simp [lastPos, hnone, hf]
    | succ p2 =>
      have hp2 : p2 < xs.length := by simp at hp; omega
      simp only [List.getD_cons_succ] at hf
      have := ih hndtl p2 s hp2 hf
      simp [lastPos, this]

theorem buildKeyIndex_lookup (key : String) :
    ∀ (l : List JVal) (n : Nat) (idx : List (String × Nat)) (s : String),
    natLookup (buildKeyIndex key l n idx) s =
      match lastPos (keyOf key) l s with
      | some j => some (n + j)
      | none => natLookup idx s := by
  intro l
  induction l with
  | nil => intro n idx s; simp [buildKeyIndex, lastPos]
  | cons x xs ih =>
    intro n idx s
    cases x with
    | obj kvs =>
      by_cases hblank : dget kvs key = JVal.null ∨ dget kvs key = JVal.str ""
      · have hstep : buildKeyIndex key (JVal.obj kvs :: xs) n idx
            = buildKeyIndex key xs (n + 1) idx := by
          simp [buildKeyIndex, hblank]
        have hkey : keyOf key (JVal.obj kvs) = none := by
          simp [keyOf, hblank]
        rw [hstep, ih (n + 1) idx s]
        cases hx : lastPos (keyOf key) xs s with
        | some j => simp [lastPos, hx]; omega
        | none => simp [lastPos, hx, hkey]
      · have hstep : buildKeyIndex key (JVal.obj kvs :: xs) n idx
            = buildKeyIndex key xs (n + 1) (natSet idx (pyStr (dget kvs key)) n) := by
          simp [buildKeyIndex, hblank]
        have hkey : keyOf key (JVal.obj kvs) = some (pyStr (dget kvs key)) := by
          simp [keyOf, hblank]
        rw [hstep, ih (n + 1) _ s]
        cases hx : lastPos (keyOf key) xs s with
        | some j => simp [lastPos, hx]; omega
        | none =>
          simp only [lastPos, hx]
          by_cases hs : keyOf key (JVal.obj kvs) = some s
          · have hps : pyStr (dget kvs key) = s := by
              rw [hkey] at hs
              exact Option.some_inj.mp hs
            rw [if_pos hs, hps, natLookup_natSet_self]
            simp
          · have hne : pyStr (dget kvs key) ≠ s := by
              intro he
              exact hs (by rw [hkey, he])
            rw [if_neg hs, natLookup_natSet_ne _ _ _ _ hne]
    | null =>
      have hkey : keyOf key JVal.null = none := by simp [keyOf]
      have hstep : buildKeyIndex key (JVal.null :: xs) n idx
          = buildKeyIndex key xs (n + 1) idx := by simp [buildKeyIndex]
      rw [hstep, ih (n + 1) idx s]
      cases hx : lastPos (keyOf key) xs s with
      | some j => simp [lastPos, hx]; omega
      | none => simp [lastPos, hx, hkey]
    | bool b =>
      have hkey : keyOf key (JVal.bool b) = none := by simp [keyOf]
      have hstep : buildKeyIndex key (JVal.bool b :: xs) n idx
          = buildKeyIndex key xs (n + 1) idx := by simp [buildKeyIndex]
      rw [hstep, ih (n + 1) idx s]
      cases hx : lastPos (keyOf key) xs s with
      | some j => simp [lastPos, hx]; omega
      | none => simp [lastPos, hx, hkey]
    | num m =>
      have hkey : keyOf key (JVal.num m) = none := by simp [keyOf]
      have hstep : buildKeyIndex key (JVal.num m :: xs) n idx
          = buildKeyIndex key xs (n + 1) idx := by simp [buildKeyIndex]
      rw [hstep, ih (n + 1) idx s]
      cases hx : lastPos (keyOf key) xs s with
      | some j => simp [lastPos, hx]; omega
      | none => simp [lastPos, hx, hkey]
    | str s2 =>
      have hkey : keyOf key (JVal.str s2) = none := by simp [keyOf]
      have hstep : buildKeyIndex key (JVal.str s2 :: xs) n idx
          = buildKeyIndex key xs (n + 1) idx := by simp [buildKeyIndex]
      rw [hstep, ih (n + 1) idx s]
      cases hx : lastPos (keyOf key) xs s with
      | some j => simp [lastPos, hx]; omega
      | none => simp [lastPos, hx, hkey]
    | arr ys =>
      have hkey : keyOf key (JVal.arr ys) = none := by simp [keyOf]
      have hstep : buildKeyIndex key (JVal.arr ys :: xs) n idx
          = buildKeyIndex key xs (n + 1) idx := by simp [buildKeyIndex]
      rw [hstep, ih (n + 1) idx s]
      cases hx : lastPos (keyOf key) xs s with
      | some j => simp [lastPos, hx]; omega
      | none => simp [lastPos, hx, hkey]

theorem buildFpIndex_lookup :
    ∀ (l : List JVal) (n : Nat) (idx : List (String × Nat)) (s : String),
    natLookup (buildFpIndex l n idx) s =
      match lastPos (fun v => some (fingerprint v)) l s with
      | some j => some (n + j)
      | none => natLookup idx s := by
  intro l
  induction l with
  | nil => intro n idx s; simp [buildFpIndex, lastPos]
  | cons x xs ih =>
    intro n idx s
    have hstep : buildFpIndex (x :: xs) n idx
        = buildFpIndex xs (n + 1) (natSet idx (fingerprint x) n) := by
      simp [buildFpIndex]
    rw [hstep, ih (n + 1) _ s]
    cases hx : lastPos (fun v => some (fingerprint v)) xs s with
    | some j => simp [lastPos, hx]; omega
    | none =>
      simp only [lastPos, hx]
      by_cases hs : fingerprint x = s
      · subst hs
        simp [natLookup_natSet_self]
      · have : (some (fingerprint x) = some s) = False := by
          simp [hs]
        simp [this, natLookup_natSet_ne _ _ _ _ hs]

/-! Derived index-lookup facts and list helpers. -/

theorem buildKeyIndex_lookup_some (key : String) (l : List JVal) (s : String) (i : Nat)
    (h : natLookup (buildKeyIndex key l 0 []) s = some i) :
    i < l.length ∧ keyOf key (l.getD i .null) = some s := by
  rw [buildKeyIndex_lookup] at h
  cases hx : lastPos (keyOf key) l s with
  | some j =>
    rw [hx] at h
    simp at h
    obtain rfl : j = i := by omega
    exact lastPos_some (keyOf key) l s j hx
  | none =>
    rw [hx] at h
    simp [natLookup] at h

theorem buildKeyIndex_lookup_of_nodup (key : String) (l : List JVal)
    (hnd : (l.filterMap (keyOf key)).Nodup) (p : Nat) (s : String)
    (hp : p < l.length) (hf : keyOf key (l.getD p .null) = some s) :
    natLookup (buildKeyIndex key l 0 []) s = some p := by
  rw [buildKeyIndex_lookup, lastPos_eq_of_nodup (keyOf key) l hnd p s hp hf]
  simp

theorem filterMap_some_fingerprint (l : List JVal) :
    l.filterMap (fun v => some (fingerprint v)) = l.map fingerprint := by
  induction l with
  | nil => rfl
  | cons x xs ih => simp [ih]

theorem buildFpIndex_lookup_some (l : List JVal) (s : String) (i : Nat)
    (h : natLookup (buildFpIndex l 0 []) s = some i) :
    i < l.length ∧ fingerprint (l.getD i .null) = s := by
  rw [buildFpIndex_lookup] at h
  cases hx : lastPos (fun v => some (fingerprint v)) l s with
  | some j =>
    rw [hx] at h
    simp at h
    obtain rfl : j = i := by omega
    have := lastPos_some (fun v => some (fingerprint v)) l s j hx
    exact ⟨this.1, by simpa using this.2⟩
  | none =>
    rw [hx] at h
    simp [natLookup] at h

theorem buildFpIndex_lookup_of_nodup (l : List JVal)
    (hnd : (l.map fingerprint).Nodup) (p : Nat) (s : String)
    (hp : p < l.length) (hf : fingerprint (l.getD p .null) = s) :
    natLookup (buildFpIndex l 0 []) s = some p := by
  have hnd2 : (l.filterMap (fun v => some (fingerprint v))).Nodup := by
    rw [filterMap_some_fingerprint]; exact hnd
  rw [buildFpIndex_lookup,
    lastPos_eq_of_nodup (fun v => some (fingerprint v)) l hnd2 p s hp (congrArg some hf)]
  simp

theorem buildFpIndex_lookup_exists (l : List JVal) (p : Nat) (hp : p < l.length)
    (s : String) (hf : fingerprint (l.getD p .null) = s) :
    ∃ i, natLookup (buildFpIndex l 0 []) s = some i := by
  obtain ⟨i, hi⟩ := lastPos_isSome (fun v => some (fingerprint v)) l s p hp (congrArg some hf)
  refine ⟨i, ?_⟩
  rw [buildFpIndex_lookup, hi]
  simp

theorem set_getD_self : ∀ (l : List JVal) (i : Nat), l.set i (l.getD i .null) = l := by
  intro l
  induction l with
  | nil => intro i; simp
  | cons x xs ih =>
    intro i
    cases i with
    | zero => simp
    | succ i2 =>
      simp only [List.getD_cons_succ, List.set_cons_succ]
      rw [ih i2]

theorem mem_set_jval : ∀ (l : List JVal) (i : Nat) (v y : JVal),
    y ∈ l.set i v → y = v ∨ y ∈ l := by
  intro l
  induction l with
  | nil => intro i v y h; simp at h
  | cons x xs ih =>
    intro i v y h
    cases i with
    | zero =>
      simp at h
      rcases h with h | h
      · left; exact h
      · right; simp [h]
    | succ i2 =>
      simp at h
      rcases h with h | h
      · right; simp [h]
      · rcases ih i2 v y h with h2 | h2
        · left; exact h2
        · right; simp [h2]

theorem mem_getD_index {x : JVal} : ∀ {l : List JVal}, x ∈ l →
    ∃ i, i < l.length ∧ l.getD i .null = x := by
  intro l
  induction l with
  | nil => intro h; simp at h
  | cons y ys ih =>
    intro h
    rcases List.mem_cons.mp h with h | h
    · exact ⟨0, by simp, by simp [h.symm]⟩
    · obtain ⟨i, hi, hg⟩ := ih h
      exact ⟨i + 1, by simp; omega, by simpa using hg⟩

/-! Self-merge lemmas: merging a keyed or fingerprinted list into itself is
the identity when identities are unique in the list. -/

theorem mergeKeyLoop_self (key : String) (l : List JVal)
    (hwf : ∀ x ∈ l, wfV x = true)
    (hnd : (l.filterMap (keyOf key)).Nodup) :
    ∀ items, (∀ x ∈ items, x ∈ l) →
    mergeKeyLoop key l (buildKeyIndex key l 0 []) items = l := by
  intro items
  induction items with
  | nil => intro _; rfl
  | cons item rest ih =>
    intro hsub
    have hmem : item ∈ l := hsub item (by simp)
    have hrest : ∀ x ∈ rest, x ∈ l := fun x hx => hsub x (by simp [hx])
    cases item with
    | obj kvs =>
      by_cases hblank : dget kvs key = JVal.null ∨ dget kvs key = JVal.str ""
      · simp only [mergeKeyLoop]
        rw [if_pos hblank, if_pos hmem]
        exact ih hrest
      · have hkey : keyOf key (JVal.obj kvs) = some (pyStr (dget kvs key)) := by
          simp [keyOf, hblank]
        obtain ⟨p, hp, hgd⟩ := mem_getD_index hmem
        have hlook : natLookup (buildKeyIndex key l 0 []) (pyStr (dget kvs key)) = some p :=
          buildKeyIndex_lookup_of_nodup key l hnd p _ hp (by rw [hgd]; exact hkey)
        have hwfkvs : wfO kvs = true := by
          have h2 := hwf _ hmem
          simpa [wfV] using h2
        simp only [mergeKeyLoop]
        rw [if_neg hblank]
        simp only [hlook, hgd]
        rw [mdfo_self kvs hwfkvs, ← hgd, set_getD_self]
        exact ih hrest
    | null =>
      simp only [mergeKeyLoop]
      rw [if_pos hmem]
      exact ih hrest
    | bool b =>
      simp only [mergeKeyLoop]
      rw [if_pos hmem]
      exact ih hrest
    | num m =>
      simp only [mergeKeyLoop]
      rw [if_pos hmem]
      exact ih hrest
    | str s =>
      simp only [mergeKeyLoop]
      rw [if_pos hmem]
      exact ih hrest
    | arr ys =>
      simp only [mergeKeyLoop]
      rw [if_pos hmem]
      exact ih hrest

theorem merge_list_by_key_self (xs : JArr) (key : String)
    (hwf : wfA xs = true) (hnd : (xs.toList.filterMap (keyOf key)).Nodup) :
    merge_list_by_key (.arr xs) (.arr xs) key = xs.toList := by
  simp only [merge_list_by_key]
  exact mergeKeyLoop_self key xs.toList (fun x hx => wfA_mem xs hwf hx) hnd
    xs.toList (fun x hx => hx)

theorem mergeFpLoop_self (l : List JVal)
    (hwf : ∀ x ∈ l, wfV x = true)
    (hnd : (l.map fingerprint).Nodup) :
    ∀ items, (∀ x ∈ items, x ∈ l) →
    mergeFpLoop l (buildFpIndex l 0 []) items = l := by
  intro items
  induction items with
  | nil => intro _; rfl
  | cons item rest ih =>
    intro hsub
    have hmem : item ∈ l := hsub item (by simp)
    have hrest : ∀ x ∈ rest, x ∈ l := fun x hx => hsub x (by simp [hx])
    obtain ⟨p, hp, hgd⟩ := mem_getD_index hmem
    have hlook : natLookup (buildFpIndex l 0 []) (fingerprint item) = some p :=
      buildFpIndex_lookup_of_nodup l hnd p _ hp (by rw [hgd])
    cases item with
    | obj kvs =>
      have hwfkvs : wfO kvs = true := by
        have h2 := hwf _ hmem
        simpa [wfV] using h2
      simp only [mergeFpLoop]
      simp only [hlook, hgd]
      rw [mdfo_self kvs hwfkvs, ← hgd, set_getD_self]
      exact ih hrest
    | null =>
      simp only [mergeFpLoop]
      simp only [hlook, hgd]
      exact ih hrest
    | bool b =>
      simp only [mergeFpLoop]
      simp only [hlook, hgd]
      exact ih hrest
    | num m =>
      simp only [mergeFpLoop]
      simp only [hlook, hgd]
      exact ih hrest
    | str s =>
      simp only [mergeFpLoop]
      simp only [hlook, hgd]
      exact ih hrest
    | arr ys =>
      simp only [mergeFpLoop]
      simp only [hlook, hgd]
      exact ih hrest

theorem merge_list_by_fingerprint_self (xs : JArr)
    (hwf : wfA xs = true) (hnd : (xs.toList.map fingerprint).Nodup) :
    merge_list_by_fingerprint (.arr xs) (.arr xs) = xs.toList := by
  simp only [merge_list_by_fingerprint]
  exact mergeFpLoop_self xs.toList (fun x hx => wfA_mem xs hwf hx) hnd
    xs.toList (fun x hx => hx)

/-! Lesson-level lemmas. -/

theorem lessonOk_elim (x : JVal) (h : lessonOk x = true) :
    ∃ kvs vs, x = JVal.obj kvs ∧ dget kvs "videos" = .arr vs ∧
      dget kvs "lesson_count" = .num (alen vs) := by
  cases x with
  | obj kvs =>
    cases hv : dget kvs "videos" with
    | arr vs =>
      refine ⟨kvs, vs, rfl, hv, ?_⟩
      simp only [lessonOk, hv] at h
      exact of_decide_eq_true h
    | null => simp [lessonOk, hv] at h
    | bool b => simp [lessonOk, hv] at h
    | num m => simp [lessonOk, hv] at h
    | str s => simp [lessonOk, hv] at h
    | obj o => simp [lessonOk, hv] at h
  | null => simp [lessonOk] at h
  | bool b => simp [lessonOk] at h
  | num m => simp [lessonOk] at h
  | str s => simp [lessonOk] at h
  | arr ys => simp [lessonOk] at h

theorem lessonOk_intro (kvs : JObj) (vs : JArr) (hv : dget kvs "videos" = .arr vs)
    (hc : dget kvs "lesson_count" = .num (alen vs)) : lessonOk (.obj kvs) = true := by
  simp [lessonOk, hv, hc]

theorem lessonOk_mergeMatchedLesson (target lesson : JObj) :
    lessonOk (.obj (mergeMatchedLesson target lesson)) = true := by
  simp only [mergeMatchedLesson]
  generalize merge_dict_fill_only target lesson = t1
  generalize merge_list_by_key (dget t1 "videos") (dget lesson "videos") "id" = merged
  rw [dget_dset_self]
  exact lessonOk_intro _ (JArr.ofList merged)
    (by rw [dget_dset_ne _ "lesson_count" "videos" _ (by decide), dget_dset_self])
    (by rw [dget_dset_self])

theorem lessonOk_recompute (kvs : JObj) (vs : JArr) (hv : dget kvs "videos" = .arr vs) :
    lessonOk (.obj (dset kvs "lesson_count" (.num (alen vs)))) = true :=
  lessonOk_intro _ vs
    (by rw [dget_dset_ne _ "lesson_count" "videos" _ (by decide), hv])
    (by rw [dget_dset_self])

theorem mergeLessonsLoop_ok : ∀ (items lst : List JVal) (idx : List (String × Nat)),
    (∀ x ∈ lst, lessonOk x = true) →
    (∀ s j, natLookup idx s = some j → j < lst.length) →
    (∀ x ∈ items, lessonOk x = true) →
    ∀ y ∈ mergeLessonsLoop lst idx items, lessonOk y = true := by
  intro items
  induction items with
  | nil => intro lst idx hl _ _ y hy; exact hl y hy
  | cons lesson rest ih =>
    intro lst idx hl hidx hitems
    have hlesson : lessonOk lesson = true := hitems lesson (by simp)
    have hrest : ∀ x ∈ rest, lessonOk x = true := fun x hx => hitems x (by simp [hx])
    obtain ⟨kvs, vs, rfl, hv, hc⟩ := lessonOk_elim lesson hlesson
    by_cases hblank : dget kvs "lesson_id" = JVal.null ∨ dget kvs "lesson_id" = JVal.str ""
    · simp only [mergeLessonsLoop]
      rw [if_pos hblank]
      by_cases hmem : JVal.obj kvs ∈ lst
      · rw [if_pos hmem]
        exact ih lst idx hl hidx hrest
      · rw [if_neg hmem]
        refine ih (lst ++ [.obj kvs]) idx ?_ ?_ hrest
        · intro x hx
          rcases List.mem_append.mp hx with h | h
          · exact hl x h
          · simp at h
            subst h
            exact hlesson
        · intro s j hj
          have := hidx s j hj
          simp
          omega
    · cases hlook : natLookup idx (pyStr (dget kvs "lesson_id")) with
      | some i =>
        have hi : i < lst.length := hidx _ _ hlook
        have hmemi : lst.getD i .null ∈ lst := jgetD_mem lst i hi
        obtain ⟨eo, vs2, hgd, hv2, hc2⟩ := lessonOk_elim _ (hl _ hmemi)
        simp only [mergeLessonsLoop]
        rw [if_neg hblank]
        simp only [hlook, hgd]
        refine ih _ idx ?_ ?_ hrest
        · intro y hy
          rcases mem_set_jval lst i _ y hy with h | h
          · subst h
            exact lessonOk_mergeMatchedLesson eo kvs
          · exact hl y h
        · intro s j hj
          have := hidx s j hj
          simpa [List.length_set] using this
      | none =>
        simp only [mergeLessonsLoop]
        rw [if_neg hblank]
        simp only [hlook, hv]
        refine ih _ _ ?_ ?_ hrest
        · intro y hy
          rcases List.mem_append.mp hy with h | h
          · exact hl y h
          · simp at h
            subst h
            exact lessonOk_recompute kvs vs hv
        · intro s j hj
          rcases natLookup_natSet_cases idx _ s _ j hj with ⟨_, h2⟩ | ⟨_, h2⟩
          · have := hidx s j h2
            simp
            omega
          · subst h2
            simp

/-! Unfolding lemmas for merge_course. -/

theorem merge_course_dget_frame (ex new : JObj) (k : String)
    (h1 : k ≠ "classroom") (h2 : k ≠ "live_classes") (h3 : k ≠ "announcements")
    (h4 : k ≠ "lessons") (h5 : k ≠ "lesson_count") :
    dget (merge_course ex new) k = dget (merge_dict_fill_only ex new) k := by
  simp only [merge_course]
  rw [dget_dset_ne _ "lesson_count" k _ (Ne.symm h5),
      dget_dset_ne _ "lessons" k _ (Ne.symm h4),
      dget_dset_ne _ "announcements" k _ (Ne.symm h3),
      dget_dset_ne _ "live_classes" k _ (Ne.symm h2),
      dget_dset_ne _ "classroom" k _ (Ne.symm h1)]

theorem merge_course_lessons_aux (ex new : JObj) (lsn : JArr)
    (hexl : dget ex "lessons" = .arr lsn)
    (hnl : ∀ v, ("lessons", v) ∈ JObj.toList new → v.isArr = true) :
    dget (merge_course ex new) "lessons"
      = .arr (JArr.ofList (mergeLessonsLoop lsn.toList
          (buildKeyIndex "lesson_id" lsn.toList 0 [])
          (match dget new "lessons" with | .arr xs => xs.toList | _ => []))) ∧
    dget (merge_course ex new) "lesson_count"
      = .num (((mergeLessonsLoop lsn.toList
          (buildKeyIndex "lesson_id" lsn.toList 0 [])
          (match dget new "lessons" with | .arr xs => xs.toList | _ => [])).map videoCount).sum) := by
  have h1 : dget (merge_dict_fill_only ex new) "lessons" = .arr lsn :=
    mdfo_preserve_arr new ex "lessons" lsn hexl hnl
  constructor
  · simp only [merge_course]
    rw [dget_dset_ne _ "lesson_count" "lessons" _ (by decide), dget_dset_self]
    rw [dget_dset_ne _ "announcements" "lessons" _ (by decide),
        dget_dset_ne _ "live_classes" "lessons" _ (by decide),
        dget_dset_ne _ "classroom" "lessons" _ (by decide), h1]
  · simp only [merge_course]
    rw [dget_dset_self]
    rw [dget_dset_ne _ "announcements" "lessons" _ (by decide),
        dget_dset_ne _ "live_classes" "lessons" _ (by decide),
        dget_dset_ne _ "classroom" "lessons" _ (by decide), h1]

/-! Self-merge lemmas for lessons. -/

theorem lessonSelfOk_elim (kvs : JObj) (h : lessonSelfOk (.obj kvs) = true)
    (hblank : ¬(dget kvs "lesson_id" = JVal.null ∨ dget kvs "lesson_id" = JVal.str "")) :
    ∃ vs, dget kvs "videos" = .arr vs ∧ (vs.toList.filterMap (keyOf "id")).Nodup ∧
      dget kvs "lesson_count" = .num (alen vs) := by
  simp only [lessonSelfOk, if_neg hblank] at h
  cases hv : dget kvs "videos" with
  | arr vs =>
    rw [hv] at h
    simp only [Bool.and_eq_true, decide_eq_true_eq] at h
    exact ⟨vs, rfl, h.1, h.2⟩
  | null => rw [hv] at h; cases h
  | bool b => rw [hv] at h; cases h
  | num m => rw [hv] at h; cases h
  | str s => rw [hv] at h; cases h
  | obj o => rw [hv] at h; cases h

theorem mergeMatchedLesson_self (kvs : JObj) (vs : JArr)
    (hwf : wfO kvs = true)
    (hv : dget kvs "videos" = .arr vs)
    (hnd : (vs.toList.filterMap (keyOf "id")).Nodup)
    (hwfvs : wfA vs = true)
    (hc : dget kvs "lesson_count" = .num (alen vs)) :
    mergeMatchedLesson kvs kvs = kvs := by
  simp only [mergeMatchedLesson]
  rw [mdfo_self kvs hwf, hv, merge_list_by_key_self vs "id" hwfvs hnd, ofList_toList,
    dset_eq_self_of_ne_null kvs "videos" _ hv (by simp), hv]
  exact dset_eq_self_of_ne_null kvs "lesson_count" _ hc (by simp)

theorem mergeLessonsLoop_self (l : List JVal)
    (hwf : ∀ x ∈ l, wfV x = true)
    (hnd : (l.filterMap (keyOf "lesson_id")).Nodup)
    (hok : ∀ x ∈ l, lessonSelfOk x = true) :
    ∀ items, (∀ x ∈ items, x ∈ l) →
    mergeLessonsLoop l (buildKeyIndex "lesson_id" l 0 []) items = l := by
  intro items
  induction items with
  | nil => intro _; rfl
  | cons item rest ih =>
    intro hsub
    have hmem : item ∈ l := hsub item (by simp)
    have hrest : ∀ x ∈ rest, x ∈ l := fun x hx => hsub x (by simp [hx])
    cases item with
    | obj kvs =>
      by_cases hblank : dget kvs "lesson_id" = JVal.null ∨ dget kvs "lesson_id" = JVal.str ""
      · simp only [mergeLessonsLoop]
        rw [if_pos hblank, if_pos hmem]
        exact ih hrest
      · have hkey : keyOf "lesson_id" (JVal.obj kvs)
            = some (pyStr (dget kvs "lesson_id")) := by
          simp [keyOf, hblank]
        obtain ⟨p, hp, hgd⟩ := mem_getD_index hmem
        have hlook : natLookup (buildKeyIndex "lesson_id" l 0 [])
            (pyStr (dget kvs "lesson_id")) = some p :=
          buildKeyIndex_lookup_of_nodup "lesson_id" l hnd p _ hp (by rw [hgd]; exact hkey)
        have hwfkvs : wfO kvs = true := by
          have h2 := hwf _ hmem
          simpa [wfV] using h2
        obtain ⟨vs, hv, hndv, hc⟩ := lessonSelfOk_elim kvs (hok _ hmem) hblank
        have hwfvs : wfA vs = true := by
          have h3 := wfV_dget kvs "videos" hwfkvs
          rw [hv] at h3
          simpa [wfV] using h3
        simp only [mergeLessonsLoop]
        rw [if_neg hblank]
        simp only [hlook, hgd]
        rw [mergeMatchedLesson_self kvs vs hwfkvs hv hndv hwfvs hc, ← hgd, set_getD_self]
        exact ih hrest
    | null =>
      simp only [mergeLessonsLoop]
      rw [if_pos hmem]
      exact ih hrest
    | bool b =>
      simp only [mergeLessonsLoop]
      rw [if_pos hmem]
      exact ih hrest
    | num m =>
      simp only [mergeLessonsLoop]
      rw [if_pos hmem]
      exact ih hrest
    | str s =>
      simp only [mergeLessonsLoop]
      rw [if_pos hmem]
      exact ih hrest
    | arr ys =>
      simp only [mergeLessonsLoop]
      rw [if_pos hmem]
      exact ih hrest

theorem videoCount_eq_of_lessonOk (x : JVal) (h : lessonOk x = true) :
    videoCount x = lessonVideoLen x := by
  obtain ⟨kvs, vs, rfl, hv, hc⟩ := lessonOk_elim x h
  simp [videoCount, lessonVideoLen, hv, pyLen]

theorem map_sum_congr (l : List JVal) (f g : JVal → Nat) (h : ∀ x ∈ l, f x = g x) :
    (l.map f).sum = (l.map g).sum := by
  induction l with
  | nil => rfl
  | cons x xs ih =>
    simp only [List.map_cons, List.sum_cons]
    rw [h x (by simp), ih (fun y hy => h y (by simp [hy]))]

/-! Lemmas for upsert_course and field preservation through merge_course. -/

theorem merge_course_preserve_nonblank (ex new : JObj) (k : String)
    (h1 : k ≠ "classroom") (h2 : k ≠ "live_classes") (h3 : k ≠ "announcements")
    (h4 : k ≠ "lessons") (h5 : k ≠ "lesson_count")
    (hnb : is_blank (dget ex k) = false)
    (hsc : ∀ v, (k, v) ∈ JObj.toList new → v.isObj = false ∧ v.isArr = false) :
    dget (merge_course ex new) k = dget ex k := by
  rw [merge_course_dget_frame ex new k h1 h2 h3 h4 h5]
  exact mdfo_preserve_nonblank new ex k hnb hsc

theorem merge_course_course_id (ex new : JObj)
    (hwfn : wfO new = true)
    (heq : dget new "course_id" = dget ex "course_id") :
    dget (merge_course ex new) "course_id" = dget ex "course_id" := by
  rw [merge_course_dget_frame ex new "course_id" (by decide) (by decide) (by decide)
    (by decide) (by decide)]
  refine mdfo_dget_fix new ex "course_id" (fun v hv => ?_)
  have h2 := wfO_dget_of_mem new hwfn hv
  exact ⟨(h2.symm.trans heq), wfV_of_mem_wfO new hwfn hv⟩

theorem upsert_course_ids (master : List JObj) (cid : JVal) (nc : JObj)
    (hwfm : ∀ c ∈ master, wfO c = true) (hwfn : wfO nc = true)
    (hnc : dget nc "course_id" = cid) :
    courseIds (upsert_course master cid nc) = courseIds master ∨
    ((∀ c ∈ master, dget c "course_id" ≠ cid) ∧
      courseIds (upsert_course master cid nc) = courseIds master ++ [cid]) := by
  induction master with
  | nil =>
    right
    constructor
    · intro c hc
      simp at hc
    · simp [upsert_course, courseIds, hnc]
  | cons c rest ih =>
    by_cases hc : dget c "course_id" = cid
    · left
      simp only [upsert_course, if_pos hc, courseIds, List.map_cons]
      rw [merge_course_course_id c nc hwfn (hnc.trans hc.symm)]
    · rcases ih (fun x hx => hwfm x (by simp [hx])) with h | ⟨hall, h⟩
      · left
        simp only [upsert_course, if_neg hc, courseIds, List.map_cons]
        simp only [courseIds] at h
        rw [h]
      · right
        refine ⟨?_, ?_⟩
        · intro x hx
          rcases List.mem_cons.mp hx with hx | hx2
          · rw [hx]
            exact hc
          · exact hall x hx2
        · simp only [upsert_course, if_neg hc, courseIds, List.map_cons]
          simp only [courseIds] at h
          rw [h]
          simp

/-! Claim theorems. -/

/-- Claim C1, counterexample: the fill-only invariant as stated is false for
an incoming dict value.  Existing record has the non-blank scalar "hello" at
field x; merging an incoming record whose x is a dict replaces the field
(merge_dict_fill_only resets a wrong-shaped existing value to an empty dict
and fills it), so the field changes. -/
theorem claim_C1_counterexample :
    is_blank (dget (.cons "x" (.str "hello") .nil) "x") = false ∧
    dget (merge_dict_fill_only (.cons "x" (.str "hello") .nil)
        (.cons "x" (.obj (.cons "a" (.num 1) .nil)) .nil)) "x"
      ≠ dget (.cons "x" (.str "hello") .nil) "x" := by decide

/-- Claim C1, amended: for every course record, every field whose current
value is non-blank, and every incoming record whose value at that field (if
any) is neither a dict nor a list, merging via merge_dict_fill_only leaves
the value of the field unchanged.  (Incoming dict and list values are the only
exception: they replace a wrong-shaped existing value.) -/
theorem claim_C1_amended (existing new : JObj) (k : String)
    (hnb : is_blank (dget existing k) = false)
    (hsc : ∀ v, (k, v) ∈ JObj.toList new → v.isObj = false ∧ v.isArr = false) :
    dget (merge_dict_fill_only existing new) k = dget existing k :=
  mdfo_preserve_nonblank new existing k hnb hsc

/-- Witness for claim C1 (amended) at a concrete input. -/
theorem claim_C1_amended_witness :
    dget (merge_dict_fill_only (.cons "x" (.str "hello") .nil)
        (.cons "x" (.str "world") .nil)) "x"
      = dget (.cons "x" (.str "hello") .nil) "x" :=
  claim_C1_amended _ _ "x" (by decide)
    (by
      intro v hv
      simp [JObj.toList] at hv
      subst hv
      decide)

theorem safe_get_retryable_cons (code : Nat) (b : Option JVal) (o2 : HttpOutcome)
    (rest2 : List HttpOutcome)
    (h : code = 500 ∨ code = 502 ∨ code = 503 ∨ code = 504) :
    safe_get (.response code b :: o2 :: rest2)
      = ((safe_get (o2 :: rest2)).1, (safe_get (o2 :: rest2)).2 + 1) := by
  show (if code = 500 ∨ code = 502 ∨ code = 503 ∨ code = 504 then
      ((safe_get (o2 :: rest2)).1, (safe_get (o2 :: rest2)).2 + 1)
    else if code ≠ 200 then (some (.arr .nil), 1)
    else match b with | some j => (some j, 1) | none => (some (.arr .nil), 1))
    = ((safe_get (o2 :: rest2)).1, (safe_get (o2 :: rest2)).2 + 1)
  rw [if_pos h]

/-- Claim C3: Fetcher retry bound.  When every attempt yields HTTP 503,
safe_get performs exactly MAX_RETRIES attempts (the outcome list has one
entry per attempt and its length is MAX_RETRIES, at least 1) and returns
the empty list; safe_get is a total function whose every branch returns a
value, so it never raises to its caller. -/
theorem claim_C3 (maxRetries : Nat) (outcomes : List HttpOutcome)
    (hlen : outcomes.length = maxRetries) (hpos : 1 ≤ maxRetries)
    (hall : ∀ o ∈ outcomes, ∃ b, o = .response 503 b) :
    safe_get outcomes = (some (.arr .nil), maxRetries) := by
  induction outcomes generalizing maxRetries with
  | nil =>
    exfalso
    simp at hlen
    omega
  | cons o rest ih =>
    obtain ⟨b, rfl⟩ := hall o (by simp)
    have hcond : (503 : Nat) = 500 ∨ (503 : Nat) = 502 ∨ (503 : Nat) = 503 ∨ (503 : Nat) = 504 := by
      right; right; left; rfl
    cases rest with
    | nil =>
      simp only [List.length_cons, List.length_nil] at hlen
      have h1 : maxRetries = 1 := by omega
      subst h1
      simp [safe_get]
    | cons o2 rest2 =>
      have hlen2 : (o2 :: rest2).length = maxRetries - 1 := by
        simp at hlen ⊢
        omega
      have hpos2 : 1 ≤ maxRetries - 1 := by
        simp at hlen
        omega
      have hre := ih (maxRetries - 1) hlen2 hpos2 (fun x hx => hall x (by simp [hx]))
      rw [safe_get_retryable_cons 503 b o2 rest2 hcond, hre]
      have h2 : maxRetries - 1 + 1 = maxRetries := by
        simp at hlen
        omega
      rw [h2]

/-- Witness for claim C3 with MAX_RETRIES = 5. -/
theorem claim_C3_witness :
    safe_get [.response 503 none, .response 503 none, .response 503 none,
      .response 503 none, .response 503 none] = (some (.arr .nil), 5) :=
  claim_C3 5 _ rfl (by omega)
    (by
      intro o ho
      simp at ho
      exact ⟨none, ho⟩)

/-- Claim C4, counterexample: a response with the 2xx status 201 and a body
that parses as valid JSON (the number 7) is not a success: safe_get treats
every status other than exactly 200 (and the retryable 500/502/503/504) as
a terminal failure and returns the empty list, not the parsed value. -/
theorem claim_C4_counterexample :
    safe_get [.response 201 (some (.num 7))] = (some (.arr .nil), 1) ∧
    (some (JVal.arr .nil), (1 : Nat)) ≠ (some (JVal.num 7), (1 : Nat)) := by decide

/-- Claim C4, amended: only a response with status exactly 200 and a body
that parses as JSON is a success returning the parsed value after one
attempt; any status other than 200 that is not one of the retryable
500/502/503/504 — including 2xx statuses such as 201 — is a terminal
failure returning the empty list after one attempt, with no retry. -/
theorem claim_C4_amended :
    (∀ (j : JVal) (rest : List HttpOutcome),
      safe_get (.response 200 (some j) :: rest) = (some j, 1)) ∧
    (∀ (code : Nat) (b : Option JVal) (rest : List HttpOutcome),
      code ≠ 200 → code ≠ 500 → code ≠ 502 → code ≠ 503 → code ≠ 504 →
      safe_get (.response code b :: rest) = (some (.arr .nil), 1)) := by
  constructor
  · intro j rest
    simp [safe_get]
  · intro code b rest h200 h500 h502 h503 h504
    simp only [safe_get]
    rw [if_neg (by simp [h500, h502, h503, h504]), if_pos h200]

/-- Witness for claim C4 (amended) at concrete inputs: a 200 response with
body 7 succeeds in one attempt; a 404 never retries. -/
theorem claim_C4_amended_witness :
    safe_get [.response 200 (some (.num 7))] = (some (.num 7), 1) ∧
    safe_get [.response 404 none, .response 503 none] = (some (.arr .nil), 1) :=
  ⟨claim_C4_amended.1 (.num 7) [],
    claim_C4_amended.2 404 none [.response 503 none]
      (by decide) (by decide) (by decide) (by decide) (by decide)⟩

/-- Claim C6, counterexample: an existing lesson with notes ["a"] matched by
an incoming lesson with notes ["b"] keeps notes ["a"] after merge_course;
the incoming note "b" is not appended, refuting append-if-absent notes
reconciliation. -/
theorem claim_C6_counterexample :
    dget (merge_course
      (.cons "lessons" (.arr (.cons (.obj (.cons "lesson_id" (.str "1")
        (.cons "notes" (.arr (.cons (.str "a") .nil))
        (.cons "videos" (.arr .nil) .nil)))) .nil)) .nil)
      (.cons "lessons" (.arr (.cons (.obj (.cons "lesson_id" (.str "1")
        (.cons "notes" (.arr (.cons (.str "b") .nil))
        (.cons "videos" (.arr .nil) .nil)))) .nil)) .nil))
      "lessons"
    = .arr (.cons (.obj (.cons "lesson_id" (.str "1")
        (.cons "notes" (.arr (.cons (.str "a") .nil))
        (.cons "videos" (.arr .nil)
        (.cons "lesson_count" (.num 0) .nil))))) .nil) ∧
    JVal.str "b" ∉ (JArr.cons (.str "a") .nil).toList := by decide

/-- Claim C6, amended: when merge_course matches an incoming lesson to an
existing lesson by lesson_id, the notes of the incoming lesson are never
appended.  The notes value of the matched lesson is unchanged whenever it is
already a list and every incoming value at the notes field is a list (the
structural fill-only merge only ensures a list exists; list contents are
not reconciled for notes). -/
theorem claim_C6_amended (target lesson : JObj) (ns : JArr)
    (hn : dget target "notes" = .arr ns)
    (hin : ∀ v, ("notes", v) ∈ JObj.toList lesson → v.isArr = true) :
    dget (mergeMatchedLesson target lesson) "notes" = .arr ns := by
  simp only [mergeMatchedLesson]
  have key : ∀ (t2 : JObj), dget t2 "notes" = .arr ns →
      dget (match dget t2 "videos" with
            | JVal.arr vs => dset t2 "lesson_count" (.num (alen vs))
            | _ => t2) "notes" = .arr ns := by
    intro t2 h2
    cases hv : dget t2 "videos" with
    | arr vs =>
      rw [dget_dset_ne _ "lesson_count" "notes" _ (by decide)]
      exact h2
    | null => exact h2
    | bool b2 => exact h2
    | num m2 => exact h2
    | str s2 => exact h2
    | obj o2 => exact h2
  refine key _ ?_
  rw [dget_dset_ne _ "videos" "notes" _ (by decide)]
  exact mdfo_preserve_arr lesson target "notes" ns hn hin

/-- Witness for claim C6 (amended) at a concrete input. -/
theorem claim_C6_amended_witness :
    dget (mergeMatchedLesson
      (.cons "lesson_id" (.str "1") (.cons "notes" (.arr (.cons (.str "a") .nil))
        (.cons "videos" (.arr .nil) .nil)))
      (.cons "lesson_id" (.str "1") (.cons "notes" (.arr (.cons (.str "b") .nil))
        (.cons "videos" (.arr .nil) .nil))))
      "notes" = .arr (.cons (.str "a") .nil) :=
  claim_C6_amended _ _ _ (by decide)
    (by
      intro v hv
      simp [JObj.toList] at hv
      subst hv
      decide)

/-- Claim C7, counterexample: ranking is not overwritten.  The master holds
a course with ranking 1; upserting an incoming record for the same
course_id carrying ranking 2 leaves ranking at 1 (the scalar fill-only
policy protects the non-blank existing value), refuting overwrite-always. -/
theorem claim_C7_counterexample :
    dget ((upsert_course
      [JObj.cons "course_id" (.str "c1") (.cons "ranking" (.num 1) .nil)]
      (.str "c1")
      (.cons "course_id" (.str "c1") (.cons "ranking" (.num 2) .nil))).getD 0 .nil)
      "ranking" = .num 1 ∧ JVal.num 1 ≠ JVal.num 2 := by decide

/-- Claim C7, amended: ranking receives no special treatment in the merge
engine: like every scalar it is merged fill-only, so for every existing
course with a non-blank ranking and every incoming record whose ranking
value (if any) is neither a dict nor a list, merge_course leaves the
existing ranking unchanged — incoming rankings never overwrite it. -/
theorem claim_C7_amended (existing new : JObj)
    (hnb : is_blank (dget existing "ranking") = false)
    (hsc : ∀ v, ("ranking", v) ∈ JObj.toList new → v.isObj = false ∧ v.isArr = false) :
    dget (merge_course existing new) "ranking" = dget existing "ranking" :=
  merge_course_preserve_nonblank existing new "ranking"
    (by decide) (by decide) (by decide) (by decide) (by decide) hnb hsc

/-- Witness for claim C7 (amended) at a concrete input. -/
theorem claim_C7_amended_witness :
    dget (merge_course
      (.cons "course_id" (.str "c1") (.cons "ranking" (.num 1) .nil))
      (.cons "course_id" (.str "c1") (.cons "ranking" (.num 2) .nil)))
      "ranking"
    = dget (JObj.cons "course_id" (.str "c1") (.cons "ranking" (.num 1) .nil)) "ranking" :=
  claim_C7_amended _ _ (by decide)
    (by
      intro v hv
      simp [JObj.toList] at hv
      subst hv
      decide)

/-- Claim C9: fetched_at is frozen at first encounter.  For every existing
course record whose fetched_at is a non-empty string, merging any incoming
record via merge_course leaves fetched_at unchanged (scalar fill-only never
overwrites a non-blank value).  The fetched_at of the incoming record is
required to be neither a dict nor a list, which holds for every record the
normalizer produces: fetch_course_details always writes an isoformat
string. -/
theorem claim_C9 (existing new : JObj) (s : String)
    (hf : dget existing "fetched_at" = .str s) (hne : s ≠ "")
    (hsc : ∀ v, ("fetched_at", v) ∈ JObj.toList new → v.isObj = false ∧ v.isArr = false) :
    dget (merge_course existing new) "fetched_at" = .str s := by
  have hnb : is_blank (dget existing "fetched_at") = false := by
    rw [hf]
    simp [is_blank, hne]
  rw [merge_course_preserve_nonblank existing new "fetched_at"
    (by decide) (by decide) (by decide) (by decide) (by decide) hnb hsc, hf]

/-- Witness for claim C9 at a concrete input. -/
theorem claim_C9_witness :
    dget (merge_course
      (.cons "course_id" (.str "c1") (.cons "fetched_at" (.str "2024-01-01T00:00:00") .nil))
      (.cons "course_id" (.str "c1") (.cons "fetched_at" (.str "2025-06-01T12:00:00") .nil)))
      "fetched_at" = .str "2024-01-01T00:00:00" :=
  claim_C9 _ _ _ (by decide) (by decide)
    (by
      intro v hv
      simp [JObj.toList] at hv
      subst hv
      decide)

/-- Claim C10: fingerprint-collision drop.  In merge_list_by_fingerprint,
when the fingerprint of an incoming item equals the fingerprint of an existing
entry (the engine consults the last existing entry with that fingerprint,
which is what the index holds) and the two are not both dicts, the incoming
item is silently discarded: it is neither merged nor appended, and the
existing list is returned unchanged. -/
theorem claim_C10 (l : List JVal) (item : JVal)
    (hcol : ∃ j, j < l.length ∧ fingerprint (l.getD j .null) = fingerprint item)
    (hnotboth : ∀ i, natLookup (buildFpIndex l 0 []) (fingerprint item) = some i →
      ¬((l.getD i .null).isObj = true ∧ item.isObj = true)) :
    merge_list_by_fingerprint (.arr (JArr.ofList l)) (.arr (.cons item .nil)) = l := by
  obtain ⟨j, hj, hfp⟩ := hcol
  obtain ⟨i, hi⟩ := buildFpIndex_lookup_exists l j hj _ hfp
  have hnb := hnotboth i hi
  simp only [merge_list_by_fingerprint, toList_ofList, JArr.toList]
  simp only [mergeFpLoop, hi]
  cases hg : l.getD i .null <;> cases item <;>
    first
    | rfl
    | exact absurd ⟨by rw [hg]; rfl, rfl⟩ hnb

/-- Witness for claim C10: an existing plain-string entry "id:7" collides
with an incoming dict whose fingerprint is also "id:7"; the incoming dict
is dropped and the list is unchanged. -/
theorem claim_C10_witness :
    merge_list_by_fingerprint (.arr (JArr.ofList [JVal.str "id:7"]))
      (.arr (.cons (.obj (.cons "id" (.num 7) .nil)) .nil)) = [JVal.str "id:7"] :=
  claim_C10 [JVal.str "id:7"] (.obj (.cons "id" (.num 7) .nil))
    ⟨0, by decide, by decide⟩
    (by
      intro i hi
      have h0 : natLookup (buildFpIndex [JVal.str "id:7"] 0 [])
          (fingerprint (JVal.obj (.cons "id" (.num 7) .nil))) = some 0 := by decide
      rw [h0] at hi
      obtain rfl : (0 : Nat) = i := Option.some_inj.mp hi
      decide)

/-- Claim C2, counterexample: the lesson video count invariant does not hold
for every pair of records.  An existing course whose only lesson carries a
stale lesson_count of 5 with an empty videos list, merged with an empty
incoming record, keeps the stale per-lesson count: the lesson is never
matched, so its lesson_count is not recomputed. -/
theorem claim_C2_counterexample :
    dget (merge_course
      (.cons "lessons" (.arr (.cons (.obj (.cons "lesson_id" (.str "1")
        (.cons "lesson_count" (.num 5) (.cons "videos" (.arr .nil) .nil)))) .nil)) .nil)
      .nil) "lessons"
    = .arr (.cons (.obj (.cons "lesson_id" (.str "1")
        (.cons "lesson_count" (.num 5) (.cons "videos" (.arr .nil) .nil)))) .nil) ∧
    dget (.cons "lesson_id" (.str "1") (.cons "lesson_count" (.num 5)
      (.cons "videos" (.arr .nil) .nil))) "lesson_count" = .num 5 ∧
    dget (.cons "lesson_id" (.str "1") (.cons "lesson_count" (.num 5)
      (.cons "videos" (.arr .nil) .nil))) "videos" = .arr .nil ∧
    JVal.num 5 ≠ JVal.num 0 := by decide

/-- Claim C2, amended: the lesson video count invariant is preserved by
merge_course rather than established from scratch.  If every existing
lesson already satisfies the per-lesson invariant (a dict with list-valued
videos and lesson_count equal to its length), the incoming lessons field
holds only list values, and every incoming lesson satisfies the per-lesson
invariant, then after the merge every lesson satisfies it and the course
lesson_count equals the sum of the videos-list lengths over all lessons. -/
theorem claim_C2_amended (existing new : JObj) (lsn : JArr)
    (hexl : dget existing "lessons" = .arr lsn)
    (hexOk : ∀ x ∈ lsn.toList, lessonOk x = true)
    (hnl : ∀ v, ("lessons", v) ∈ JObj.toList new → v.isArr = true)
    (hnls : ∀ xs, dget new "lessons" = .arr xs → ∀ x ∈ xs.toList, lessonOk x = true) :
    ∃ fl : List JVal,
      dget (merge_course existing new) "lessons" = .arr (JArr.ofList fl) ∧
      (∀ x ∈ fl, lessonOk x = true) ∧
      dget (merge_course existing new) "lesson_count"
        = .num ((fl.map lessonVideoLen).sum) := by
  obtain ⟨hles, hcnt⟩ := merge_course_lessons_aux existing new lsn hexl hnl
  have hNLok : ∀ x ∈ (match dget new "lessons" with
      | JVal.arr xs => xs.toList | _ => ([] : List JVal)), lessonOk x = true := by
    cases hdn : dget new "lessons" with
    | arr xs => intro x hx; exact hnls xs hdn x hx
    | null => intro x hx; simp at hx
    | bool b => intro x hx; simp at hx
    | num m => intro x hx; simp at hx
    | str s => intro x hx; simp at hx
    | obj o => intro x hx; simp at hx
  have hall := mergeLessonsLoop_ok _ lsn.toList (buildKeyIndex "lesson_id" lsn.toList 0 [])
    hexOk (fun s j h => (buildKeyIndex_lookup_some "lesson_id" lsn.toList s j h).1) hNLok
  refine ⟨_, hles, hall, ?_⟩
  rw [hcnt, map_sum_congr _ videoCount lessonVideoLen
    (fun x hx => videoCount_eq_of_lessonOk x (hall x hx))]

/-- Witness for claim C2 (amended) at a concrete input: one existing lesson
with one video, one new incoming lesson with no videos. -/
theorem claim_C2_amended_witness :
    ∃ fl : List JVal,
      dget (merge_course
        (.cons "lessons" (.arr (.cons (.obj (.cons "lesson_id" (.str "1")
          (.cons "videos" (.arr (.cons (.obj (.cons "id" (.str "v1") .nil)) .nil))
          (.cons "lesson_count" (.num 1) .nil)))) .nil)) .nil)
        (.cons "lessons" (.arr (.cons (.obj (.cons "lesson_id" (.str "2")
          (.cons "videos" (.arr .nil)
          (.cons "lesson_count" (.num 0) .nil)))) .nil)) .nil)) "lessons"
        = .arr (JArr.ofList fl) ∧
      (∀ x ∈ fl, lessonOk x = true) ∧
      dget (merge_course
        (.cons "lessons" (.arr (.cons (.obj (.cons "lesson_id" (.str "1")
          (.cons "videos" (.arr (.cons (.obj (.cons "id" (.str "v1") .nil)) .nil))
          (.cons "lesson_count" (.num 1) .nil)))) .nil)) .nil)
        (.cons "lessons" (.arr (.cons (.obj (.cons "lesson_id" (.str "2")
          (.cons "videos" (.arr .nil)
          (.cons "lesson_count" (.num 0) .nil)))) .nil)) .nil)) "lesson_count"
        = .num ((fl.map lessonVideoLen).sum) :=
  claim_C2_amended _ _
    (.cons (.obj (.cons "lesson_id" (.str "1")
      (.cons "videos" (.arr (.cons (.obj (.cons "id" (.str "v1") .nil)) .nil))
      (.cons "lesson_count" (.num 1) .nil)))) .nil)
    (by decide) (by decide)
    (by
      intro v hv
      simp [JObj.toList] at hv
      subst hv
      decide)
    (by
      intro xs hxs
      have h0 : dget (JObj.cons "lessons" (.arr (.cons (.obj (.cons "lesson_id" (.str "2")
          (.cons "videos" (.arr .nil)
          (.cons "lesson_count" (.num 0) .nil)))) .nil)) .nil) "lessons"
          = JVal.arr (.cons (.obj (.cons "lesson_id" (.str "2")
          (.cons "videos" (.arr .nil)
          (.cons "lesson_count" (.num 0) .nil)))) .nil) := by decide
      rw [h0] at hxs
      injection hxs with h2
      subst h2
      decide)

/-- Claim C5, counterexample: merge idempotence fails.  For the course
record with an empty lessons list and a course-level lesson_count of 7,
merging an identical copy into it resets lesson_count to 0 (the count is
recomputed from the lessons), so the record is changed by the merge. -/
theorem claim_C5_counterexample :
    dget (merge_course
      (.cons "lessons" (.arr .nil) (.cons "lesson_count" (.num 7) .nil))
      (.cons "lessons" (.arr .nil) (.cons "lesson_count" (.num 7) .nil)))
      "lesson_count" = .num 0 ∧
    dget (JObj.cons "lessons" (.arr .nil) (.cons "lesson_count" (.num 7) .nil))
      "lesson_count" = .num 7 ∧
    JVal.num 0 ≠ JVal.num 7 := by decide

/-- Claim C5, amended: merge_course A A = A holds for the records the
system itself maintains: A is well-formed (distinct keys throughout), its
classroom, live_classes, announcements and lessons fields are lists with
pairwise-distinct identities (stringified id values, fingerprints for
announcements, lesson_id for lessons), every dict lesson with a usable
lesson_id has a list-valued videos field with distinct video ids and a
lesson_count equal to its video count, and the course lesson_count equals
the sum over the lessons.  Then merging an identical copy of A into A via
merge_course leaves A literally unchanged. -/
theorem claim_C5_amended (A : JObj) (cls lvs ann lsn : JArr)
    (hwf : wfV (.obj A) = true)
    (hc : dget A "classroom" = .arr cls)
    (hcK : (cls.toList.filterMap (keyOf "id")).Nodup)
    (hl : dget A "live_classes" = .arr lvs)
    (hlK : (lvs.toList.filterMap (keyOf "id")).Nodup)
    (ha : dget A "announcements" = .arr ann)
    (haF : (ann.toList.map fingerprint).Nodup)
    (hls : dget A "lessons" = .arr lsn)
    (hlsK : (lsn.toList.filterMap (keyOf "lesson_id")).Nodup)
    (hlsOk : ∀ x ∈ lsn.toList, lessonSelfOk x = true)
    (hcount : dget A "lesson_count" = .num ((lsn.toList.map videoCount).sum)) :
    merge_course A A = A := by
  have hwfA : wfO A = true := by simpa [wfV] using hwf
  have hwfc : wfA cls = true := by
    have h2 := wfV_dget A "classroom" hwfA
    rw [hc] at h2
    simpa [wfV] using h2
  have hwfl : wfA lvs = true := by
    have h2 := wfV_dget A "live_classes" hwfA
    rw [hl] at h2
    simpa [wfV] using h2
  have hwfa : wfA ann = true := by
    have h2 := wfV_dget A "announcements" hwfA
    rw [ha] at h2
    simpa [wfV] using h2
  have hwflsn : wfA lsn = true := by
    have h2 := wfV_dget A "lessons" hwfA
    rw [hls] at h2
    simpa [wfV] using h2
  have hm : (match dget A "lessons" with
      | JVal.arr xs => xs.toList | _ => ([] : List JVal)) = lsn.toList := by
    rw [hls]
  simp only [merge_course]
  rw [mdfo_self A hwfA, hc, merge_list_by_key_self cls "id" hwfc hcK, ofList_toList,
    dset_eq_self_of_ne_null A "classroom" _ hc (by simp)]
  rw [hl, merge_list_by_key_self lvs "id" hwfl hlK, ofList_toList,
    dset_eq_self_of_ne_null A "live_classes" _ hl (by simp)]
  rw [ha, merge_list_by_fingerprint_self ann hwfa haF, ofList_toList,
    dset_eq_self_of_ne_null A "announcements" _ ha (by simp)]
  rw [hm]
  rw [mergeLessonsLoop_self lsn.toList (fun x hx => wfA_mem lsn hwflsn hx) hlsK hlsOk
    lsn.toList (fun x hx => hx)]
  rw [ofList_toList, dset_eq_self_of_ne_null A "lessons" _ hls (by simp)]
  exact dset_eq_self_of_ne_null A "lesson_count" _ hcount (by simp)

/-- Witness for claim C5 (amended): a fully-populated concrete course
record is a fixed point of merging its own copy. -/
theorem claim_C5_amended_witness :
    merge_course
      (.cons "course_id" (.str "c1") (.cons "ranking" (.num 1)
      (.cons "classroom" (.arr (.cons (.obj (.cons "id" (.str "r1") .nil)) .nil))
      (.cons "live_classes" (.arr .nil)
      (.cons "announcements" (.arr (.cons (.obj (.cons "id" (.str "n1") .nil)) .nil))
      (.cons "lessons" (.arr (.cons (.obj (.cons "lesson_id" (.str "l1")
        (.cons "videos" (.arr (.cons (.obj (.cons "id" (.str "v1") .nil)) .nil))
        (.cons "lesson_count" (.num 1) (.cons "notes" (.arr .nil) .nil))))) .nil))
      (.cons "lesson_count" (.num 1)
      (.cons "fetched_at" (.str "2024-01-01T00:00:00") .nil))))))))
      (.cons "course_id" (.str "c1") (.cons "ranking" (.num 1)
      (.cons "classroom" (.arr (.cons (.obj (.cons "id" (.str "r1") .nil)) .nil))
      (.cons "live_classes" (.arr .nil)
      (.cons "announcements" (.arr (.cons (.obj (.cons "id" (.str "n1") .nil)) .nil))
      (.cons "lessons" (.arr (.cons (.obj (.cons "lesson_id" (.str "l1")
        (.cons "videos" (.arr (.cons (.obj (.cons "id" (.str "v1") .nil)) .nil))
        (.cons "lesson_count" (.num 1) (.cons "notes" (.arr .nil) .nil))))) .nil))
      (.cons "lesson_count" (.num 1)
      (.cons "fetched_at" (.str "2024-01-01T00:00:00") .nil))))))))
    = .cons "course_id" (.str "c1") (.cons "ranking" (.num 1)
      (.cons "classroom" (.arr (.cons (.obj (.cons "id" (.str "r1") .nil)) .nil))
      (.cons "live_classes" (.arr .nil)
      (.cons "announcements" (.arr (.cons (.obj (.cons "id" (.str "n1") .nil)) .nil))
      (.cons "lessons" (.arr (.cons (.obj (.cons "lesson_id" (.str "l1")
        (.cons "videos" (.arr (.cons (.obj (.cons "id" (.str "v1") .nil)) .nil))
        (.cons "lesson_count" (.num 1) (.cons "notes" (.arr .nil) .nil))))) .nil))
      (.cons "lesson_count" (.num 1)
      (.cons "fetched_at" (.str "2024-01-01T00:00:00") .nil))))))) :=
  claim_C5_amended _
    (.cons (.obj (.cons "id" (.str "r1") .nil)) .nil)
    .nil
    (.cons (.obj (.cons "id" (.str "n1") .nil)) .nil)
    (.cons (.obj (.cons "lesson_id" (.str "l1")
      (.cons "videos" (.arr (.cons (.obj (.cons "id" (.str "v1") .nil)) .nil))
      (.cons "lesson_count" (.num 1) (.cons "notes" (.arr .nil) .nil))))) .nil)
    (by decide) (by decide) (by decide) (by decide) (by decide)
    (by decide) (by decide) (by decide) (by decide) (by decide) (by decide)

/-- Claim C8: upsert preserves course_id uniqueness.  If the master
course_id values of the collection are pairwise distinct, every record is a
well-formed dict, and the course_id field of the incoming record equals the
course_id being upserted, then after upsert_course (merge in place on a
match, append verbatim otherwise) the course_id values are still pairwise
distinct. -/
theorem claim_C8 (master : List JObj) (cid : JVal) (nc : JObj)
    (hdist : (courseIds master).Pairwise (· ≠ ·))
    (hwfm : ∀ c ∈ master, wfO c = true) (hwfn : wfO nc = true)
    (hnc : dget nc "course_id" = cid) :
    (courseIds (upsert_course master cid nc)).Pairwise (· ≠ ·) := by
  rcases upsert_course_ids master cid nc hwfm hwfn hnc with h | ⟨hall, h⟩
  · rw [h]
    exact hdist
  · rw [h, List.pairwise_append]
    refine ⟨hdist, by simp, ?_⟩
    intro a ha b hb
    simp at hb
    subst hb
    simp only [courseIds, List.mem_map] at ha
    obtain ⟨c, hc, rfl⟩ := ha
    exact hall c hc

/-- Witness for claim C8: upserting a new course into a one-course master
keeps course ids pairwise distinct. -/
theorem claim_C8_witness :
    (courseIds (upsert_course
      [JObj.cons "course_id" (.str "c1") (.cons "ranking" (.num 1) .nil)]
      (.str "c2")
      (.cons "course_id" (.str "c2") (.cons "ranking" (.num 2) .nil)))).Pairwise (· ≠ ·) :=
  claim_C8 _ _ _ (by decide)
    (by
      intro c hc
      simp at hc
      subst hc
      decide)
    (by decide) (by decide)
